import Mathlib

set_option maxRecDepth 40000
set_option maxHeartbeats 1000000

/-!
Verification of the organization-substitution engine of this repository
(`SimilarOrgReplacement_BetterPerformance.py`, class `HybridOrganizationReplacer`).

The Python code is shallowly embedded: instance attributes become fields of an
explicit state record threaded through the operations, the `requests.get` call
becomes an oracle `String → WebOutcome` (the `try/except` around it is modelled
by the `exn` outcome), `random.choice` / `random.shuffle` consume an abstract
stream of naturals (any concrete randomness is one particular stream), Python
floats are modelled by exact rationals, and Python dicts and sets become
association lists with overwrite-in-place insertion (Python dicts keep the
original position of an overwritten key, which the embedding reproduces).
A `None` result of a whole operation models an uncaught Python exception.
-/

namespace OrgReplace

/-! ## Python string primitives -/

/-- Python `str.lower()` for the ASCII data handled by this program. -/
def strLower (s : String) : String := String.mk (s.data.map Char.toLower)

/-- Test whether the first list occurs at the start of the second. -/
def listStartsWith : List Char → List Char → Bool
  | [], _ => true
  | _ :: _, [] => false
  | a :: as, b :: bs => a == b && listStartsWith as bs

/-- Worker for `strContains` on explicit character lists. -/
def charsContains (p : List Char) : List Char → Bool
  | [] => p.isEmpty
  | c :: t => listStartsWith p (c :: t) || charsContains p t

/-- Python substring test `pat in s` (contiguous substring). -/
def strContains (s pat : String) : Bool := charsContains pat.data s.data

/-- Python whitespace class for `str.strip`, `str.split` and the regex `\s`. -/
def isPySpace (c : Char) : Bool :=
  c == ' ' || c == '\t' || c == '\n' || c == '\r' || c == '\x0b' || c == '\x0c'

/-- Python `str.strip()`. -/
def pyStrip (s : String) : String :=
  String.mk (((s.data.dropWhile isPySpace).reverse.dropWhile isPySpace).reverse)

/-- Worker for `pyWords`, accumulating the current word reversed. -/
def pyWordsAux : List Char → List Char → List String
  | [], acc => if acc.isEmpty then [] else [String.mk acc.reverse]
  | c :: t, acc =>
    if isPySpace c then
      if acc.isEmpty then pyWordsAux t [] else String.mk acc.reverse :: pyWordsAux t []
    else pyWordsAux t (c :: acc)

/-- Python `str.split()` with no argument: split on whitespace runs. -/
def pyWords (s : String) : List String := pyWordsAux s.data []

/-- Python `str.title()`: a cased character starting a run is uppercased, the
rest of the run is lowercased. -/
def pyTitleAux : List Char → Bool → List Char
  | [], _ => []
  | c :: t, prevAlpha =>
    (if c.isAlpha then (if prevAlpha then c.toLower else c.toUpper) else c) ::
      pyTitleAux t c.isAlpha

/-- Python `str.title()`. -/
def pyTitle (s : String) : String := String.mk (pyTitleAux s.data false)

/-! ## Python dict and set, as association lists -/

/-- Python dict write `d[k] = v`: overwrite in place, else append. -/
def dictUpd {α : Type} (d : List (String × α)) (k : String) (v : α) :
    List (String × α) :=
  if d.any (fun p => p.1 == k) then d.map (fun p => if p.1 == k then (k, v) else p)
  else d ++ [(k, v)]

/-- Python dict read `d.get(k)` / `k in d`. -/
def dictFind? {α : Type} (d : List (String × α)) (k : String) : Option α :=
  (d.find? (fun p => p.1 == k)).map (·.2)

/-- Python `set.add`. -/
def setAdd (s : List String) (x : String) : List String :=
  if s.contains x then s else s ++ [x]

/-! ## Abstract randomness

`random.choice` and `random.shuffle` are driven by an abstract stream of
naturals; a concrete run of the Python program corresponds to one stream. -/

/-- An oracle for the `random` module: a stream of naturals and a cursor. -/
structure Rng where
  seq : Nat → Nat
  pos : Nat

/-- Draw the next natural from the stream. -/
def Rng.next (r : Rng) : Nat × Rng := (r.seq r.pos, { r with pos := r.pos + 1 })

/-- Python `random.choice(l)`: `none` models the `IndexError` raised on an
empty sequence. -/
def pyChoice {α : Type} (l : List α) (r : Rng) : Option α × Rng :=
  let (n, r') := r.next
  (l.get? (n % l.length), r')

/-- Worker for `pyShuffle`: repeatedly move an oracle-selected element to the
front.  Any permutation is reachable, which is the behavior of
`random.shuffle` under the abstract randomness oracle. -/
def pyShuffleAux : Nat → List String → Rng → List String × Rng
  | 0, l, r => (l, r)
  | fuel + 1, l, r =>
    match l with
    | [] => ([], r)
    | _ =>
      let (n, r') := r.next
      let i := n % l.length
      let x := l.getD i ""
      let (rest, r'') := pyShuffleAux fuel (l.eraseIdx i) r'
      (x :: rest, r'')

/-- Python `random.shuffle(l)` (never raises, returns a permutation). -/
def pyShuffle (l : List String) (r : Rng) : List String × Rng :=
  pyShuffleAux l.length l r

/-! ## The core database (`_initialize_core_database`) -/

/-- The static catalog `self.core_db`, verbatim from the source. -/
def core_db : List (String × List String) :=
  [("technology",
    ["Apple", "Microsoft", "Google", "Amazon", "Meta", "Tesla", "Netflix",
     "Adobe", "Salesforce", "Oracle", "IBM", "Intel", "NVIDIA", "Cisco",
     "ServiceNow", "Zoom", "Slack", "Shopify", "PayPal", "Uber", "Airbnb",
     "Spotify", "Twitter", "LinkedIn", "TikTok", "Samsung", "Sony", "OpenAI",
     "Anthropic", "DeepMind", "Figma", "Notion", "Discord", "Reddit", "Dropbox"]),
   ("finance",
    ["JPMorgan Chase", "Bank of America", "Wells Fargo", "Citigroup",
     "Goldman Sachs", "Morgan Stanley", "BlackRock", "Visa", "Mastercard",
     "American Express", "Capital One", "Charles Schwab", "Robinhood",
     "Stripe", "Square", "Coinbase", "Fidelity", "Vanguard"]),
   ("healthcare",
    ["Johnson & Johnson", "Pfizer", "Moderna", "UnitedHealth", "CVS Health",
     "Merck", "AbbVie", "Bristol Myers Squibb", "Eli Lilly", "Amgen",
     "Walgreens", "Kaiser Permanente", "Anthem", "Humana", "Cigna"]),
   ("retail",
    ["Walmart", "Amazon", "Target", "Costco", "Home Depot", "Starbucks",
     "McDonald\x27s", "Nike", "Coca-Cola", "PepsiCo", "Procter & Gamble"]),
   ("automotive",
    ["Tesla", "Ford", "General Motors", "Toyota", "BMW", "Mercedes-Benz",
     "Volkswagen", "Honda", "Nissan", "Hyundai", "Rivian", "Lucid Motors"]),
   ("media",
    ["Disney", "Netflix", "Warner Bros", "Comcast", "CNN", "BBC",
     "New York Times", "Washington Post", "Reuters", "Bloomberg"]),
   ("education",
    ["Harvard University", "Stanford University", "MIT", "Yale University",
     "Princeton University", "Columbia University", "UC Berkeley", "UCLA"]),
   ("aerospace",
    ["Boeing", "Airbus", "SpaceX", "Blue Origin", "Lockheed Martin",
     "American Airlines", "Delta Air Lines", "United Airlines"])]

/-- Python `self.core_db.get(industry, [])`. -/
def coreDbGet (industry : String) : List String :=
  ((core_db.find? (fun p => p.1 == industry)).map (·.2)).getD []

/-- The reverse lookup `self.org_to_industry`, built exactly like the source:
iterate the catalog in order and write `org.lower() → industry` into a dict
(later industries overwrite earlier ones for duplicated names). -/
def org_to_industry : List (String × String) :=
  core_db.foldl
    (fun d p => p.2.foldl (fun d org => dictUpd d (strLower org) p.1) d) []

/-- The keyword table `self.industry_patterns`, verbatim from the source. -/
def industry_patterns : List (String × List String) :=
  [("technology",
    ["tech", "software", "ai", "digital", "cyber", "cloud", "data", "app",
     "platform", "systems", "solutions", "computing", "internet", "mobile"]),
   ("finance",
    ["bank", "financial", "capital", "fund", "investment", "credit", "loan",
     "insurance", "trading", "securities", "fintech", "payments", "crypto"]),
   ("healthcare",
    ["health", "medical", "pharma", "bio", "clinic", "hospital", "care",
     "therapeutics", "diagnostics", "wellness", "medicine", "treatment"]),
   ("retail",
    ["retail", "store", "shop", "market", "brand", "consumer", "fashion",
     "commerce", "merchandise", "sales", "shopping", "marketplace"]),
   ("automotive",
    ["auto", "car", "vehicle", "motor", "automotive", "transport", "mobility",
     "electric", "ev", "manufacturing", "assembly"]),
   ("media",
    ["media", "news", "broadcasting", "entertainment", "publishing", "content",
     "streaming", "production", "studios", "network", "channel"]),
   ("education",
    ["university", "college", "school", "education", "academic", "institute",
     "learning", "research", "campus", "faculty", "student"]),
   ("energy",
    ["energy", "oil", "gas", "power", "electric", "renewable", "solar",
     "wind", "nuclear", "utilities", "grid", "fuel"]),
   ("aerospace",
    ["aerospace", "aviation", "airline", "aircraft", "flight", "space",
     "defense", "military", "rocket", "satellite"])]

/-- Python `min(a, b)` (used with float arguments; since every candidate value
here is an exact decimal, the rational model is exact). -/
def pyMin (a b : ℚ) : ℚ := if b < a then b else a

/-! ## difflib.SequenceMatcher ratio

Faithful embedding of `SequenceMatcher(None, a, b).ratio()` for strings of
fewer than 200 characters (so the autojunk heuristic of difflib is inactive
and the junk set is empty, making the post-DP extension loops no-ops). -/

/-- Best matching block found so far by `find_longest_match`. -/
structure FlmBest where
  besti : Nat
  bestj : Nat
  bestsize : Nat
deriving Repr, DecidableEq

/-- Read entry `j` of a sparse DP row, defaulting to 0. -/
def rowGet (row : List (Nat × Nat)) (j : Nat) : Nat :=
  (((row.find? (fun p => p.1 == j)).map (·.2))).getD 0

/-- One outer-loop iteration of `find_longest_match`: scan the positions `j`
of `b` carrying `a[i]`, extend runs from the previous row, track the first
strictly larger run. -/
def flmRow (b : List Char) (blo bhi : Nat) (ai : Char) (i : Nat)
    (prev : List (Nat × Nat)) (best : FlmBest) : List (Nat × Nat) × FlmBest :=
  let idx := (List.range b.length).filter
    (fun j => blo ≤ j && j < bhi && b.getD j ' ' == ai)
  idx.foldl
    (fun (st : List (Nat × Nat) × FlmBest) j =>
      let k := (if j == 0 then 0 else rowGet prev (j - 1)) + 1
      let best' := if k > st.2.bestsize then
          ({ besti := i + 1 - k, bestj := j + 1 - k, bestsize := k } : FlmBest)
        else st.2
      ((j, k) :: st.1, best'))
    ([], best)

/-- `SequenceMatcher.find_longest_match` on `a[alo:ahi]` and `b[blo:bhi]`,
with the empty junk set. -/
def findLongestMatch (a b : List Char) (alo ahi blo bhi : Nat) : FlmBest :=
  let rows := (List.range a.length).filter (fun i => alo ≤ i && i < ahi)
  (rows.foldl
    (fun (st : List (Nat × Nat) × FlmBest) i =>
      flmRow b blo bhi (a.getD i ' ') i st.1 st.2)
    ([], { besti := alo, bestj := blo, bestsize := 0 })).2

/-- Total size of all matching blocks: the recursive decomposition of
`get_matching_blocks` (the adjacent-block merge step does not change the
total, which is all `ratio` consumes). -/
def matchTotal (a b : List Char) : Nat → Nat × Nat × Nat × Nat → Nat
  | 0, _ => 0
  | fuel + 1, (alo, ahi, blo, bhi) =>
    let best := findLongestMatch a b alo ahi blo bhi
    if best.bestsize == 0 then 0
    else
      matchTotal a b fuel (alo, best.besti, blo, best.bestj) + best.bestsize +
        matchTotal a b fuel
          (best.besti + best.bestsize, ahi, best.bestj + best.bestsize, bhi)

/-- `SequenceMatcher(None, a, b).ratio()`, the exact rational `2*M/T` (and 1
when both strings are empty). -/
def seqRatio (a b : String) : ℚ :=
  let la := a.data
  let lb := b.data
  let t := la.length + lb.length
  if t == 0 then 1
  else mkRat (2 * matchTotal la lb (t + 1) (0, la.length, 0, lb.length)) t

/-! ## fast_categorize_organization (uncached body) -/

/-- One update of the fuzzy-match scan: keep the candidate when its
similarity strictly beats both the best so far and the 0.7 threshold. -/
def fuzzyStep (orgLower : String) (st : Option String × ℚ) (p : String × String) :
    Option String × ℚ :=
  let sim := seqRatio orgLower p.1
  if sim > st.2 ∧ sim > mkRat 7 10 then (some p.2, sim) else st

/-- Method 3 of `fast_categorize_organization`: scan `org_to_industry` keeping
the first strictly best similarity above 0.7. -/
def fuzzyScan (orgLower : String) : Option String × ℚ :=
  org_to_industry.foldl (fuzzyStep orgLower) (none, 0)

/-- Method 4 of `fast_categorize_organization`: per-industry keyword hit
counts, keeping industries with a positive score in table order. -/
def patternScores (orgLower : String) : List (String × Nat) :=
  industry_patterns.foldl
    (fun acc p =>
      let score := p.2.countP (fun pat => strContains orgLower pat)
      if score > 0 then acc ++ [(p.1, score)] else acc) []

/-- Python `max(scores, key=scores.get)`: first key with the maximal value. -/
def maxByFirst (l : List (String × Nat)) : Option (String × Nat) :=
  l.foldl
    (fun acc p =>
      match acc with
      | none => some p
      | some q => if p.2 > q.2 then some p else some q) none

/-- The body of `fast_categorize_organization` (lines 157-202 of the source),
before the `lru_cache` wrapper.  It reads the learned-pattern dict of the
instance state. -/
def fast_categorize_raw (learned : List (String × String)) (orgName : String) :
    String × ℚ :=
  let orgLower := strLower orgName
  match dictFind? org_to_industry orgLower with
  | some ind => (ind, 1)
  | none =>
  match dictFind? learned orgLower with
  | some ind => (ind, mkRat 8 10)
  | none =>
  let fz := fuzzyScan orgLower
  match fz.1 with
  | some ind => (ind, fz.2)
  | none =>
  match maxByFirst (patternScores orgLower) with
  | some (ind, score) => (ind, pyMin (mkRat 6 10) (mkRat (score * 2) 10))
  | none =>
  if ["university", "college", "school"].any (fun t => strContains orgLower t) then
    ("education", mkRat 7 10)
  else if ["bank", "financial"].any (fun t => strContains orgLower t) then
    ("finance", mkRat 7 10)
  else if ["hospital", "medical", "health"].any (fun t => strContains orgLower t) then
    ("healthcare", mkRat 7 10)
  else ("technology", mkRat 3 10)

/-! ## The memoization wrapper (`@lru_cache(maxsize=2000)`) -/

/-- A cache of `functools.lru_cache`, most recently used entry first. -/
abbrev FastCache := List (String × (String × ℚ))

/-- The `maxsize` argument of the `lru_cache` decorator on
`fast_categorize_organization`. -/
def FAST_CACHE_MAXSIZE : Nat := 2000

/-- One access to the `lru_cache` around `fast_categorize_organization`:
a hit moves the entry to the front without recomputing; a miss computes the
body, pushes the entry and drops the least recently used entry beyond
`maxsize`. -/
def memoStep (learned : List (String × String)) (cache : FastCache)
    (orgName : String) : (String × ℚ) × FastCache :=
  match cache.find? (fun p => p.1 == orgName) with
  | some entry =>
    (entry.2, (entry.1, entry.2) :: cache.eraseP (fun p => p.1 == orgName))
  | none =>
    let v := fast_categorize_raw learned orgName
    (v, ((orgName, v) :: cache).take FAST_CACHE_MAXSIZE)

/-! ## Instance state and configuration -/

/-- Result record of `discover_organization_web`. -/
structure OrganizationInfo where
  name : String
  category : String
  industry : String
  confidence : ℚ
  source : String
deriving Repr, DecidableEq

/-- The mutable attributes of a `HybridOrganizationReplacer` instance that the
substitution engine reads and writes. -/
structure RState where
  failed_lookups : List String
  web_request_count : Nat
  learned_patterns : List (String × String)
  dynamic_cache : List (String × OrganizationInfo)
  fast_cache : FastCache
deriving Repr

/-- The construction-time configuration of the instance. -/
structure Config where
  enable_web_fallback : Bool
  max_web_requests : Nat

/-- The freshly constructed state (`__init__`). -/
def initState : RState :=
  { failed_lookups := [], web_request_count := 0, learned_patterns := [],
    dynamic_cache := [], fast_cache := [] }

/-- The memoized `fast_categorize_organization`, acting on the instance
state (the cache and the learned patterns both live there). -/
def fast_categorize_organization (st : RState) (orgName : String) :
    (String × ℚ) × RState :=
  let r := memoStep st.learned_patterns st.fast_cache orgName
  (r.1, { st with fast_cache := r.2 })

/-! ## discover_organization_web -/

/-- Outcome of one `requests.get` on the Wikipedia summary endpoint:
either some exception is raised (timeout, connection error, ...), or a
response arrives with a status code, a flag telling whether `.json()`
raises, and the `extract` field of the payload (defaulted to the empty
string, as `data.get` does). -/
inductive WebOutcome where
  | exn
  | response (status : Nat) (jsonBad : Bool) (extract : String)

/-- Result of `discover_organization_web`: the returned value, the state
after the call, and whether an HTTP request was actually issued. -/
structure DiscResult where
  info : Option OrganizationInfo
  st : RState
  madeRequest : Bool
deriving Repr

/-- `categorize_from_description` (lines 264-284 of the source). -/
def categorize_from_description (description : String) : String × ℚ :=
  let descLower := strLower description
  let scores := industry_patterns.foldl
    (fun acc p =>
      let score := p.2.countP (fun pat => strContains descLower pat)
      if score > 0 then acc ++ [(p.1, score)] else acc) []
  match maxByFirst scores with
  | none => ("technology", mkRat 3 10)
  | some (ind, ms) =>
    (ind, pyMin (mkRat 9 10) (mkRat (ms * 3) 20 + mkRat description.length 1000))

/-- The local-classifier fallback of `discover_organization_web` (lines
245-256): consult the memoized classifier and return an `inferred` result
only above confidence 0.5; nothing is recorded in `failed_lookups`. -/
def discoverFallback (st : RState) (orgName : String) : DiscResult :=
  let r := fast_categorize_organization st orgName
  let industry := r.1.1
  let confidence := r.1.2
  let st := r.2
  if confidence > mkRat 5 10 then
    let info : OrganizationInfo :=
      { name := orgName, category := industry, industry := industry,
        confidence := confidence, source := "inferred" }
    ⟨some info, { st with dynamic_cache := dictUpd st.dynamic_cache orgName info },
     true⟩
  else ⟨none, st, true⟩

/-- `discover_organization_web` (lines 204-262 of the source).  The three
guards are checked in source order; past them the request counter is
incremented and the oracle is consulted (`madeRequest = true`); an oracle
exception lands in the `except` clause, which records the name in
`failed_lookups`; a 200 response with a usable extract classifies the
description, learns the pattern and caches the discovery; any other response
falls through to the local classifier, returning an `inferred` result only
above confidence 0.5 and recording nothing in `failed_lookups`. -/
def discover_organization_web (cfg : Config) (oracle : String → WebOutcome)
    (st : RState) (orgName : String) : DiscResult :=
  if !cfg.enable_web_fallback then ⟨none, st, false⟩
  else if st.failed_lookups.contains orgName then ⟨none, st, false⟩
  else if cfg.max_web_requests ≤ st.web_request_count then ⟨none, st, false⟩
  else
    let st := { st with web_request_count := st.web_request_count + 1 }
    match oracle orgName with
    | .exn => ⟨none, { st with failed_lookups := setAdd st.failed_lookups orgName }, true⟩
    | .response status jsonBad extract =>
      if status == 200 then
        if jsonBad then
          ⟨none, { st with failed_lookups := setAdd st.failed_lookups orgName }, true⟩
        else
          let ex := strLower extract
          if ex ≠ "" ∧ 50 < ex.length then
            let ic := categorize_from_description ex
            let info : OrganizationInfo :=
              { name := orgName, category := ic.1, industry := ic.1,
                confidence := ic.2, source := "web" }
            ⟨some info,
             { st with
                learned_patterns := dictUpd st.learned_patterns (strLower orgName) ic.1,
                dynamic_cache := dictUpd st.dynamic_cache orgName info }, true⟩
          else discoverFallback st orgName
      else discoverFallback st orgName

/-! ## get_similar_organizations_hybrid -/

/-- The related-industries table (`_get_related_industries`). -/
def relationships : List (String × List String) :=
  [("technology", ["finance", "media", "healthcare"]),
   ("finance", ["technology", "healthcare", "retail"]),
   ("healthcare", ["technology", "finance"]),
   ("retail", ["technology", "media"]),
   ("media", ["technology", "entertainment"]),
   ("automotive", ["technology", "energy"]),
   ("energy", ["technology", "automotive"]),
   ("aerospace", ["technology", "automotive"]),
   ("education", ["technology", "healthcare"])]

/-- `_get_related_industries`. -/
def relatedIndustries (industry : String) : List String :=
  (dictFind? relationships industry).getD ["technology"]

/-- The corporate suffixes stripped by `generate_contextual_organization`
(the alternation of the anchored regex, in order). -/
def CORP_SUFFIXES : List String :=
  ["Inc", "Corp", "Ltd", "Company", "Co", "Group", "LLC", "LLP",
   "Solutions", "Systems", "Technologies"]

/-- Worker for `matchCorpSuffix`: `r` is the reversed name with the optional
final dot already consumed; match the suffix word case-insensitively and
demand at least one whitespace character before it; on success return the
characters before the match. -/
def matchCorpSuffixAux (r : List Char) (w : String) : Option (List Char) :=
  let wr := ((strLower w).data).reverse
  if listStartsWith wr (r.map Char.toLower) then
    let rest := r.drop wr.length
    match rest.head? with
    | some c =>
      if isPySpace c then some ((rest.dropWhile isPySpace).reverse) else none
    | none => none
  else none

/-- Try to match the anchored regex part for one suffix word: an optional
final dot, the word (case-insensitively), and at least one whitespace
character before it; on success return the characters before the match. -/
def matchCorpSuffix (l : List Char) (w : String) : Option (List Char) :=
  let r := l.reverse
  matchCorpSuffixAux (if r.head? == some '.' then r.tail else r) w

/-- The base-name extraction of `generate_contextual_organization`:
`re.sub` of the anchored suffix regex followed by `.strip()`. -/
def stripCorpSuffix (orgName : String) : String :=
  let m := CORP_SUFFIXES.foldl
    (fun acc w =>
      match acc with
      | some r => some r
      | none => matchCorpSuffix orgName.data w) none
  match m with
  | some base => pyStrip (String.mk base)
  | none => pyStrip orgName

/-- The per-industry suffix table of `generate_contextual_organization`. -/
def industry_suffixes : List (String × List String) :=
  [("technology", ["Tech", "Systems", "Digital", "Solutions"]),
   ("finance", ["Financial", "Capital", "Investment", "Securities"]),
   ("healthcare", ["Health", "Medical", "Care", "Bio"]),
   ("retail", ["Retail", "Commerce", "Brands", "Market"]),
   ("education", ["Institute", "Academy", "University", "College"])]

/-- The variant list assembled by `generate_contextual_organization` before
the random pick. -/
def generationVariations (orgName industry : String) : List String :=
  let baseName := stripCorpSuffix orgName
  let words := pyWords baseName
  let variations :=
    if words.length > 1 then
      [words.getD 0 "" ++ " " ++ pyTitle industry,
       "Global " ++ words.getLastD "",
       words.getLastD "" ++ " Enterprises",
       "Premier " ++ " ".intercalate (words.take 2)]
    else
      [baseName ++ " Technologies",
       "Advanced " ++ baseName,
       baseName ++ " Group",
       "Global " ++ baseName,
       baseName ++ " Solutions"]
  let suffixes := (dictFind? industry_suffixes industry).getD
    ["Corp", "Group", "Enterprises"]
  variations ++ (suffixes.take 2).map (fun sfx => baseName ++ " " ++ sfx)

/-- `generate_contextual_organization` (lines 356-395): build the variant
list and pick one uniformly (`none` would model the `IndexError` of an empty
pick, which cannot happen since the variant list is never empty). -/
def generate_contextual_organization (orgName industry : String) (rng : Rng) :
    Option String × Rng :=
  pyChoice (generationVariations orgName industry) rng

/-- The `while len(similar_orgs) < count` loop of
`get_similar_organizations_hybrid` (lines 333-337), indexed by fuel: the
source loop has no iteration bound, so the fuel-indexed family is the
standard shallow embedding; reaching `count` within some fuel is exactly
termination of the loop. -/
def synthLoop (orgName industry : String) (count : Nat) :
    Nat → List String → Rng → Option (List String × Rng)
  | 0, pool, rng => some (pool, rng)
  | fuel + 1, pool, rng =>
    if pool.length < count then
      match generate_contextual_organization orgName industry rng with
      | (none, _) => none
      | (some syn, rng') =>
        synthLoop orgName industry count fuel
          (if pool.contains syn then pool else pool ++ [syn]) rng'
    else some (pool, rng)

/-- The `for related_industry in related_industries` extension loop of
`get_similar_organizations_hybrid` (lines 322-330). -/
def extendRelated (nameLower : String) (count : Nat) :
    List String → List String → List String
  | [], pool => pool
  | r :: rs, pool =>
    if count * 2 ≤ pool.length then pool
    else
      extendRelated nameLower count rs
        (pool ++ ((coreDbGet r).filter
          (fun o => !pool.contains o && strLower o != nameLower)))

/-- Result record of `get_similar_organizations_hybrid`. -/
structure SimResult where
  orgs : List String
  st : RState
  rng : Rng
  webCalls : Nat

/-- Steps 5 and 6 of `get_similar_organizations_hybrid` (lines 320-339):
extend the pool from related industries when it is short, run the synthesis
loop, shuffle and truncate. -/
def gsFinish (orgName industry : String) (count fuel : Nat) (st : RState)
    (rng : Rng) (calls : Nat) (similar : List String) : Option SimResult :=
  let similar2 :=
    if similar.length < count then
      extendRelated (strLower orgName) count (relatedIndustries industry) similar
    else similar
  match synthLoop orgName industry count fuel similar2 rng with
  | none => none
  | some (pool, rng') =>
    let sh := pyShuffle pool rng'
    some ⟨sh.1.take count, st, sh.2, calls⟩

/-- `get_similar_organizations_hybrid` (lines 286-339). -/
def get_similar_organizations_hybrid (cfg : Config) (oracle : String → WebOutcome)
    (st : RState) (rng : Rng) (orgName : String) (count : Nat) (fuel : Nat) :
    Option SimResult :=
  let r1 := fast_categorize_organization st orgName
  let industry := r1.1.1
  let confidence := r1.1.2
  let st := r1.2
  let nameLower := strLower orgName
  let similar := (coreDbGet industry).filter (fun o => strLower o != nameLower)
  if count ≤ similar.length ∧ confidence > mkRat 7 10 then
    let sh := pyShuffle similar rng
    some ⟨sh.1.take count, st, sh.2, 0⟩
  else
    let step4 :
        String × List String × RState × Nat :=
      if confidence < mkRat 7 10 ∧ cfg.enable_web_fallback then
        let d := discover_organization_web cfg oracle st orgName
        let calls := if d.madeRequest then 1 else 0
        match d.info with
        | some info =>
          if info.confidence > confidence then
            (info.industry,
             (coreDbGet info.industry).filter (fun o => strLower o != nameLower),
             d.st, calls)
          else (industry, similar, d.st, calls)
        | none => (industry, similar, d.st, calls)
      else (industry, similar, st, 0)
    gsFinish orgName step4.1 count fuel step4.2.2.1 rng step4.2.2.2 step4.2.1

/-! ## replace_organizations_hybrid -/

/-- The metadata record written per organization (source tag, the `industry`
and `confidence` locals guarded by the `in locals()` test). -/
structure MetaInfo where
  source : String
  industry : String
  confidence : ℚ
deriving Repr, DecidableEq

/-- Result of resolving one organization inside the replacement loop
(lines 421-452): the chosen replacement, its source tag, the updated state,
and the `industry` and `confidence` local variables as they stand after this
iteration (`none` while never assigned). -/
structure OrgResolution where
  replacement : String
  source : String
  st : RState
  rng : Rng
  industryLocal : Option String
  confidenceLocal : Option ℚ
  webCalls : Nat

/-- The high-confidence database pick of the replacement loop (lines
433-440): only above confidence 0.7, only when the industry has candidates
besides the input. -/
def resolveDb (industry : String) (confidence : ℚ) (orgName : String)
    (rng : Rng) : Option (String × Rng) :=
  if confidence > mkRat 7 10 then
    let similar := coreDbGet industry
    if similar.isEmpty then none
    else
      let candidates := similar.filter (fun o => strLower o != strLower orgName)
      if candidates.isEmpty then none
      else
        match pyChoice candidates rng with
        | (some c, rng') => some (c, rng')
        | (none, _) => none
  else none

/-- The `if not replacement` final fallback (lines 449-452): synthesize a
name.  A `none` result models an uncaught exception (unreachable here since
the variant list is never empty). -/
def genFallback (orgName industry : String) (confidence : ℚ) (st : RState)
    (rng : Rng) (calls : Nat) : Option OrgResolution :=
  match generate_contextual_organization orgName industry rng with
  | (none, _) => none
  | (some g, rng') =>
    some ⟨g, "generated", st, rng', some industry, some confidence, calls⟩

/-- The dynamic path of the replacement loop (lines 442-452): assemble
candidates, pick one at random when the list is nonempty and the pick is
truthy, otherwise fall back to synthesis (Python tests `if not replacement`,
which is also met by an empty replacement string). -/
def resolveDynamic (cfg : Config) (oracle : String → WebOutcome) (fuel : Nat)
    (st : RState) (rng : Rng) (industry : String) (confidence : ℚ)
    (orgName : String) : Option OrgResolution :=
  match get_similar_organizations_hybrid cfg oracle st rng orgName 5 fuel with
  | none => none
  | some sim =>
    match sim.orgs with
    | [] => genFallback orgName industry confidence sim.st sim.rng sim.webCalls
    | _ :: _ =>
      match pyChoice sim.orgs sim.rng with
      | (none, _) => none
      | (some c, rng') =>
        if c == "" then
          genFallback orgName industry confidence sim.st rng' sim.webCalls
        else
          some ⟨c, "dynamic", sim.st, rng', some industry, some confidence,
                sim.webCalls⟩

/-- The body of the replacement loop for one organization name
(lines 421-452): custom mapping first; otherwise classify, then the
high-confidence database path, then dynamic discovery, then synthetic
generation.  A `none` result models an uncaught exception. -/
def resolveOrg (cfg : Config) (oracle : String → WebOutcome)
    (custom : List (String × String)) (fuel : Nat) (st : RState) (rng : Rng)
    (indL : Option String) (confL : Option ℚ) (orgName : String) :
    Option OrgResolution :=
  match dictFind? custom orgName with
  | some repl => some ⟨repl, "custom", st, rng, indL, confL, 0⟩
  | none =>
    let r1 := fast_categorize_organization st orgName
    let industry := r1.1.1
    let confidence := r1.1.2
    let st := r1.2
    match resolveDb industry confidence orgName rng with
    | some (c, rng') =>
      if c == "" then
        resolveDynamic cfg oracle fuel st rng' industry confidence orgName
      else
        some ⟨c, "database", st, rng', some industry, some confidence, 0⟩
    | none => resolveDynamic cfg oracle fuel st rng industry confidence orgName

/-- Result record of `replace_organizations_hybrid`. -/
structure ReplaceResult where
  text : String
  replacements : List (String × String)
  metadata : List (String × MetaInfo)
  st : RState
  rng : Rng
  webCalls : Nat

/-- Stable insertion into a list sorted by descending start offset
(`organizations.sort(key=lambda x: x[1], reverse=True)`). -/
def insertDescByStart (x : String × Nat × Nat) :
    List (String × Nat × Nat) → List (String × Nat × Nat)
  | [] => [x]
  | y :: t => if y.2.1 < x.2.1 then x :: y :: t else y :: insertDescByStart x t

/-- Stable sort by descending start offset. -/
def sortDescByStart (l : List (String × Nat × Nat)) : List (String × Nat × Nat) :=
  l.foldl (fun acc x => insertDescByStart x acc) []

/-- The replacement loop of `replace_organizations_hybrid` over the sorted
occurrence list, threading text, result dicts, state, randomness and the
dangling `industry` and `confidence` locals. -/
def replaceLoop (cfg : Config) (oracle : String → WebOutcome)
    (custom : List (String × String)) (fuel : Nat) :
    List (String × Nat × Nat) → String → List (String × String) →
    List (String × MetaInfo) → RState → Rng → Option String → Option ℚ →
    Nat → Option ReplaceResult
  | [], text, reps, meta, st, rng, _, _, calls =>
    some ⟨text, reps, meta, st, rng, calls⟩
  | (orgName, startPos, endPos) :: rest, text, reps, meta, st, rng, indL, confL,
      calls =>
    match resolveOrg cfg oracle custom fuel st rng indL confL orgName with
    | none => none
    | some r =>
      if r.replacement == "" then
        replaceLoop cfg oracle custom fuel rest text reps meta r.st r.rng
          r.industryLocal r.confidenceLocal (calls + r.webCalls)
      else
        replaceLoop cfg oracle custom fuel rest
          (String.mk (text.data.take startPos ++ r.replacement.data ++
            text.data.drop endPos))
          (dictUpd reps orgName r.replacement)
          (dictUpd meta orgName
            ⟨r.source, r.industryLocal.getD "unknown", r.confidenceLocal.getD 0⟩)
          r.st r.rng r.industryLocal r.confidenceLocal (calls + r.webCalls)

/-- `replace_organizations_hybrid` (lines 402-464).  The NER front end is an
external collaborator, so the extracted occurrence list
`(name, start, end)` is an input. -/
def replace_organizations_hybrid (cfg : Config) (oracle : String → WebOutcome)
    (custom : List (String × String)) (fuel : Nat) (st : RState) (rng : Rng)
    (text : String) (organizations : List (String × Nat × Nat)) :
    Option ReplaceResult :=
  if organizations.isEmpty then some ⟨text, [], [], st, rng, 0⟩
  else
    replaceLoop cfg oracle custom fuel (sortDescByStart organizations) text
      [] [] st rng none none 0

/-! ## Concrete fixtures for witnesses and counterexamples -/

/-- A randomness stream that always yields the same natural. -/
def rngConst (k : Nat) : Rng := { seq := fun _ => k, pos := 0 }

/-- The randomness stream 0, 1, 2, ... -/
def rngId : Rng := { seq := fun n => n, pos := 0 }

/-- A web oracle whose requests always raise (for example a timeout). -/
def oracleExn : String → WebOutcome := fun _ => .exn

/-- A web oracle that always answers 404 with a well-formed empty payload
(the not-found shape of the Wikipedia summary endpoint). -/
def oracle404 : String → WebOutcome := fun _ => .response 404 false ""

/-- The standard configuration of the demonstration `main` of the source:
web fallback enabled, at most five requests. -/
def cfg5 : Config := { enable_web_fallback := true, max_web_requests := 5 }

/-- A state whose `lru_cache` already holds the classification of `zzqx`
(the pair it caches is exactly `fast_categorize_raw [] "zzqx"`, see
`raw_zzqx`), as a prior categorization call leaves it. -/
def stZzqx : RState :=
  { initState with fast_cache := [("zzqx", ("technology", mkRat 3 10))] }

/-- A finance-flavored Wikipedia summary of more than 50 characters. -/
def financeDesc : String :=
  "a bank holding company offering financial investment insurance credit loan and trading services"

/-- A web oracle that always answers 200 with the finance summary. -/
def oracleFinance : String → WebOutcome :=
  fun _ => .response 200 false financeDesc

/-- The string of `n` letters `a` (keys for filling the cache). -/
def aStr (n : Nat) : String := String.mk (List.replicate n 'a')

/-- A sequence of accesses to the `lru_cache` of
`fast_categorize_organization`: each access carries the learned-pattern
dict in effect at that moment (web discoveries may rewrite it between two
accesses) together with the name looked up; only the cache is threaded. -/
def memoFold (steps : List (List (String × String) × String))
    (cache : FastCache) : FastCache :=
  steps.foldl (fun c s => (memoStep s.1 c s.2).2) cache

/-- Run the memoized classifier over a list of names, threading the
instance state (a run of `fast_categorize_organization` calls). -/
def catRun (names : List String) (st : RState) : RState :=
  names.foldl (fun s n => (fast_categorize_organization s n).2) st

/-- The filler names `aStr 1, ..., aStr n`, in call order. -/
def aList (n : Nat) : List String := (List.range n).map (fun i => aStr (i + 1))

/-- The cache entries installed by categorizing the filler names
`aStr 1, ..., aStr n` in order (most recently used first), when the
learned-pattern dict is `lrn` throughout. -/
def aEntriesRev (lrn : List (String × String)) : Nat → FastCache
  | 0 => []
  | n + 1 =>
    (aStr (n + 1), fast_categorize_raw lrn (aStr (n + 1))) :: aEntriesRev lrn n

end OrgReplace

namespace OrgReplace

/-! # Theorems -/

/-! ## C2: the request budget, once exhausted, is final -/

/-- Past the three guards nothing in `discover_organization_web` runs when
the counter has reached the maximum: the call returns `None`, changes no
state and issues no request. -/
theorem discover_budget_exhausted (cfg : Config) (oracle : String → WebOutcome)
    (st : RState) (name : String)
    (h : cfg.max_web_requests ≤ st.web_request_count) :
    discover_organization_web cfg oracle st name = ⟨none, st, false⟩ := by
  simp only [discover_organization_web, h, if_true]
  split
  · rfl
  · split <;> rfl

/-- The classifier wrapper never touches the request counter. -/
theorem fastCat_count (st : RState) (name : String) :
    (fast_categorize_organization st name).2.web_request_count =
      st.web_request_count := rfl

/-- The assembly tail passes state and call count through unchanged. -/
theorem gsFinish_stCalls (orgName industry : String) (count fuel : Nat)
    (st : RState) (rng : Rng) (calls : Nat) (similar : List String) :
    ∀ out, gsFinish orgName industry count fuel st rng calls similar =
        some out → out.st = st ∧ out.webCalls = calls := by
  intro out hout
  simp only [gsFinish] at hout
  split at hout
  · cases hout
  · cases hout
    exact ⟨rfl, rfl⟩

/-- `get_similar_organizations_hybrid` with an exhausted budget issues no
request and leaves the counter unchanged. -/
theorem getSimilar_budget_exhausted (cfg : Config) (oracle : String → WebOutcome)
    (st : RState) (rng : Rng) (name : String) (count fuel : Nat)
    (h : cfg.max_web_requests ≤ st.web_request_count) :
    ∀ res, get_similar_organizations_hybrid cfg oracle st rng name count fuel =
        some res →
      res.webCalls = 0 ∧ res.st.web_request_count = st.web_request_count := by
  intro res hres
  simp only [get_similar_organizations_hybrid] at hres
  rw [discover_budget_exhausted cfg oracle (fast_categorize_organization st name).2
    name h] at hres
  simp only at hres
  split at hres
  · cases hres
    exact ⟨rfl, rfl⟩
  · obtain ⟨hst, hcalls⟩ := gsFinish_stCalls _ _ count fuel _ rng _ _ res hres
    constructor
    · rw [hcalls]
      dsimp only
      split <;> rfl
    · rw [hst]
      dsimp only
      split <;> rfl


/-- The dynamic path with an exhausted budget issues no request and leaves
the counter unchanged. -/
theorem resolveDynamic_budget_exhausted (cfg : Config)
    (oracle : String → WebOutcome) (fuel : Nat) (st : RState) (rng : Rng)
    (industry : String) (confidence : ℚ) (name : String)
    (h : cfg.max_web_requests ≤ st.web_request_count) :
    ∀ r, resolveDynamic cfg oracle fuel st rng industry confidence name =
        some r →
      r.webCalls = 0 ∧ r.st.web_request_count = st.web_request_count := by
  intro r hr
  unfold resolveDynamic at hr
  split at hr
  · cases hr
  · rename_i sim heq
    have hsim := getSimilar_budget_exhausted cfg oracle st rng name 5 fuel h
      sim heq
    split at hr
    · unfold genFallback at hr
      split at hr
      · cases hr
      · cases hr
        exact hsim
    · split at hr
      · cases hr
      · split at hr
        · unfold genFallback at hr
          split at hr
          · cases hr
          · cases hr
            exact hsim
        · cases hr
          exact hsim

/-- One step of the replacement loop with an exhausted budget issues no
request and leaves the counter unchanged. -/
theorem resolveOrg_budget_exhausted (cfg : Config) (oracle : String → WebOutcome)
    (custom : List (String × String)) (fuel : Nat) (st : RState) (rng : Rng)
    (indL : Option String) (confL : Option ℚ) (name : String)
    (h : cfg.max_web_requests ≤ st.web_request_count) :
    ∀ r, resolveOrg cfg oracle custom fuel st rng indL confL name = some r →
      r.webCalls = 0 ∧ r.st.web_request_count = st.web_request_count := by
  intro r hr
  simp only [resolveOrg] at hr
  split at hr
  · cases hr
    exact ⟨rfl, rfl⟩
  · split at hr
    · split at hr
      · exact resolveDynamic_budget_exhausted cfg oracle fuel
          (fast_categorize_organization st name).2 _ _ _ name h r hr
      · cases hr
        exact ⟨rfl, rfl⟩
    · exact resolveDynamic_budget_exhausted cfg oracle fuel
        (fast_categorize_organization st name).2 _ _ _ name h r hr

/-- The whole replacement loop with an exhausted budget issues no request
and leaves the counter at or above the maximum. -/
theorem replaceLoop_budget_exhausted (cfg : Config) (oracle : String → WebOutcome)
    (custom : List (String × String)) (fuel : Nat) :
    ∀ (orgs : List (String × Nat × Nat)) (text : String)
      (reps : List (String × String)) (meta : List (String × MetaInfo))
      (st : RState) (rng : Rng) (indL : Option String) (confL : Option ℚ)
      (calls : Nat),
      cfg.max_web_requests ≤ st.web_request_count →
      ∀ res, replaceLoop cfg oracle custom fuel orgs text reps meta st rng
          indL confL calls = some res →
        res.webCalls = calls ∧
          cfg.max_web_requests ≤ res.st.web_request_count := by
  intro orgs
  induction orgs with
  | nil =>
    intro text reps meta st rng indL confL calls h res hres
    cases hres
    exact ⟨rfl, h⟩
  | cons p rest ih =>
    intro text reps meta st rng indL confL calls h res hres
    obtain ⟨name, startPos, endPos⟩ := p
    unfold replaceLoop at hres
    split at hres
    · cases hres
    · rename_i r hr
      obtain ⟨hc0, hcnt⟩ := resolveOrg_budget_exhausted cfg oracle custom fuel
        st rng indL confL name h r hr
      have h' : cfg.max_web_requests ≤ r.st.web_request_count := hcnt ▸ h
      split at hres
      · have := ih text reps meta r.st r.rng r.industryLocal r.confidenceLocal
          (calls + r.webCalls) h' res hres
        rw [hc0] at this
        exact this
      · have := ih _ _ _ r.st r.rng r.industryLocal r.confidenceLocal
          (calls + r.webCalls) h' res hres
        rw [hc0] at this
        exact this


/-- C2: once the external-request counter has reached the configured maximum
`max_web_requests`, a whole run of the replacement operation performs no
further network call, no matter how many additional (known or unknown) names
it resolves, and the counter never drops back below the maximum. -/
theorem C2_budget_bound (cfg : Config) (oracle : String → WebOutcome)
    (custom : List (String × String)) (fuel : Nat) (st : RState) (rng : Rng)
    (text : String) (orgs : List (String × Nat × Nat))
    (h : cfg.max_web_requests ≤ st.web_request_count) :
    ∀ res, replace_organizations_hybrid cfg oracle custom fuel st rng text
        orgs = some res →
      res.webCalls = 0 ∧ cfg.max_web_requests ≤ res.st.web_request_count := by
  intro res hres
  unfold replace_organizations_hybrid at hres
  split at hres
  · cases hres
    exact ⟨rfl, h⟩
  · exact replaceLoop_budget_exhausted cfg oracle custom fuel _ text [] [] st
      rng none none 0 h res hres

/-- Witness for C2: with the maximum at 5 and the counter already at 5, a
run that resolves a further name reports zero network calls. -/
theorem C2_budget_bound_witness :
    cfg5.max_web_requests ≤
      (({ initState with web_request_count := 5 } : RState)).web_request_count ∧
    (replace_organizations_hybrid cfg5 oracleExn [] 0
        { initState with web_request_count := 5 } rngId "Apple leads"
        [("Apple", 0, 5)]).map (fun res => res.webCalls) = some 0 := by
  constructor
  · decide
  · cases hres : replace_organizations_hybrid cfg5 oracleExn [] 0
        { initState with web_request_count := 5 } rngId "Apple leads"
        [("Apple", 0, 5)] with
    | none =>
      have h2 : (replace_organizations_hybrid cfg5 oracleExn [] 0
          { initState with web_request_count := 5 } rngId "Apple leads"
          [("Apple", 0, 5)]).isSome = true := rfl
      rw [hres] at h2
      cases h2
    | some res =>
      have hmain := C2_budget_bound cfg5 oracleExn [] 0
        { initState with web_request_count := 5 } rngId "Apple leads"
        [("Apple", 0, 5)] (by decide) res hres
      simpa using hmain.1


/-! ## C5: the synthetic generator versus its input -/

/-- A successful `random.choice` picks an element of its argument. -/
theorem pyChoice_mem {α : Type} (l : List α) (r : Rng) (x : α) (r' : Rng)
    (h : pyChoice l r = (some x, r')) : x ∈ l := by
  unfold pyChoice at h
  have : l.get? (r.seq r.pos % l.length) = some x := congrArg Prod.fst h
  exact List.get?_mem this

/-- String concatenation concatenates the character lists. -/
theorem strData_append (a b : String) : (a ++ b).data = a.data ++ b.data := rfl

/-- Dropping a leading whitespace run of a whitespace-free list is the
identity. -/
theorem dropWhile_nospace (l : List Char)
    (h : ∀ c ∈ l, isPySpace c = false) : l.dropWhile isPySpace = l := by
  cases l with
  | nil => rfl
  | cons c t =>
    rw [List.dropWhile_cons]
    rw [h c (List.mem_cons_self c t)]
    simp

/-- `str.strip()` of a whitespace-free string is the string itself. -/
theorem pyStrip_nospace (s : String)
    (h : ∀ c ∈ s.data, isPySpace c = false) : pyStrip s = s := by
  unfold pyStrip
  rw [dropWhile_nospace s.data h]
  rw [dropWhile_nospace s.data.reverse (fun c hc => h c (List.mem_reverse.mp hc))]
  rw [List.reverse_reverse]

/-- An element delivered by `head?` is a member of the list. -/
theorem mem_of_headEq {α : Type} {l : List α} {a : α} (h : l.head? = some a) :
    a ∈ l :=
  List.mem_of_mem_head? (Option.mem_def.mpr h)

/-- The suffix matcher fails on any whitespace-free reversed tail: the
mandatory whitespace before the suffix word is missing. -/
theorem matchCorpSuffixAux_nospace (r : List Char) (w : String)
    (h : ∀ c ∈ r, isPySpace c = false) : matchCorpSuffixAux r w = none := by
  simp only [matchCorpSuffixAux]
  split
  · split
    · next c heq =>
      have hc : c ∈ r.drop (strLower w).data.reverse.length := mem_of_headEq heq
      rw [h c (List.drop_subset _ _ hc)]
      simp
    · rfl
  · rfl

/-- The anchored suffix regex cannot match a whitespace-free name: the
mandatory whitespace before the suffix word is missing. -/
theorem matchCorpSuffix_nospace (l : List Char) (w : String)
    (h : ∀ c ∈ l, isPySpace c = false) : matchCorpSuffix l w = none := by
  simp only [matchCorpSuffix]
  apply matchCorpSuffixAux_nospace
  intro c hc
  have hc3 : c ∈ l.reverse := by
    by_cases hdot : l.reverse.head? == some '.'
    · rw [if_pos hdot] at hc
      exact List.tail_subset _ hc
    · rw [if_neg hdot] at hc
      exact hc
  exact h c (List.mem_reverse.mp hc3)

/-- The base-name extraction leaves a whitespace-free name unchanged. -/
theorem stripCorpSuffix_nospace (s : String)
    (h : ∀ c ∈ s.data, isPySpace c = false) : stripCorpSuffix s = s := by
  unfold stripCorpSuffix
  have hfold : CORP_SUFFIXES.foldl
      (fun acc w => match acc with
        | some r => some r
        | none => matchCorpSuffix s.data w) none = none := by
    have : ∀ (ws : List String),
        ws.foldl (fun acc w => match acc with
          | some r => some r
          | none => matchCorpSuffix s.data w) none = none := by
      intro ws
      induction ws with
      | nil => rfl
      | cons w t ih =>
        rw [List.foldl_cons]
        simp only [matchCorpSuffix_nospace s.data w h]
        exact ih
    exact this CORP_SUFFIXES
  rw [hfold]
  exact pyStrip_nospace s h

/-- Splitting a whitespace-free character list yields at most one word. -/
theorem pyWordsAux_nospace (l : List Char)
    (h : ∀ c ∈ l, isPySpace c = false) :
    ∀ acc, pyWordsAux l acc =
      if l.isEmpty && acc.isEmpty then [] else [String.mk (acc.reverse ++ l)] := by
  induction l with
  | nil =>
    intro acc
    unfold pyWordsAux
    cases acc with
    | nil => rfl
    | cons a t => simp
  | cons c t ih =>
    intro acc
    unfold pyWordsAux
    rw [h c (List.mem_cons_self c t)]
    simp only [Bool.false_eq_true, if_false]
    rw [ih (fun x hx => h x (List.mem_cons_of_mem c hx)) (c :: acc)]
    cases t with
    | nil =>
      simp [List.reverse_cons]
    | cons d u =>
      simp [List.reverse_cons]

/-- Every variant the generator builds for a whitespace-free input contains
a space character. -/
theorem generationVariations_have_space (orgName industry : String)
    (h : ∀ c ∈ orgName.data, isPySpace c = false) :
    ∀ x ∈ generationVariations orgName industry, ' ' ∈ x.data := by
  intro x hx
  simp only [generationVariations, stripCorpSuffix_nospace orgName h] at hx
  have hwords : pyWords orgName =
      if orgName.data.isEmpty && List.isEmpty [] then []
      else [String.mk (List.reverse [] ++ orgName.data)] :=
    pyWordsAux_nospace orgName.data h []
  have hlen : ¬ (pyWords orgName).length > 1 := by
    rw [hwords]
    split <;> simp
  rw [if_neg hlen] at hx
  rcases List.mem_append.mp hx with h5 | hsfx
  · have hsp : ∀ (tailStr : String), ' ' ∈ tailStr.data →
        ' ' ∈ (orgName ++ tailStr).data := by
      intro tailStr hts
      rw [strData_append]
      exact List.mem_append_right _ hts
    simp only [List.mem_cons, List.not_mem_nil, or_false] at h5
    rcases h5 with h1 | h2 | h3 | h4 | h5'
    · rw [h1, strData_append]
      exact List.mem_append_right _ (by decide)
    · rw [h2, strData_append]
      exact List.mem_append_left _ (by decide)
    · rw [h3, strData_append]
      exact List.mem_append_right _ (by decide)
    · rw [h4, strData_append]
      exact List.mem_append_left _ (by decide)
    · rw [h5', strData_append]
      exact List.mem_append_right _ (by decide)
  · rcases List.mem_map.mp hsfx with ⟨sfx, _, hxeq⟩
    rw [← hxeq, strData_append, strData_append]
    exact List.mem_append_left _ (List.mem_append_right _ (by decide))

/-- C5 (amended): for an input containing no whitespace the generator output
is never identical to the input (every variant contains a space); multi-word
inputs, or inputs ending in a known corporate suffix, can regenerate the
input verbatim, as the counterexample shows. -/
theorem C5_generator_differs_for_spaceless (orgName industry : String)
    (rng : Rng)
    (h : orgName.data.all (fun c => !isPySpace c) = true) :
    ∀ s rng', generate_contextual_organization orgName industry rng =
        (some s, rng') → s ≠ orgName := by
  intro s rng' hgen heq
  have hns : ∀ c ∈ orgName.data, isPySpace c = false := by
    intro c hc
    have := List.all_eq_true.mp h c hc
    simpa using this
  have hmem : s ∈ generationVariations orgName industry := by
    unfold generate_contextual_organization at hgen
    exact pyChoice_mem _ rng s rng'
      (by rw [hgen])
  have hsp := generationVariations_have_space orgName industry hns s hmem
  rw [heq] at hsp
  have hf := hns ' ' hsp
  rw [show isPySpace ' ' = true from rfl] at hf
  exact Bool.noConfusion hf

/-- C5 counterexample: `generate` can return its input verbatim.  For input
`Acme Corp` with industry `media` the suffix `Corp` is stripped, the industry
has no suffix table entry, and the fallback suffix list re-appends `Corp`,
so `Acme Corp` itself is variant number 5; the randomness stream constantly 5
picks exactly it. -/
theorem C5_generator_can_return_input :
    (generate_contextual_organization "Acme Corp" "media" (rngConst 5)).1 =
      some "Acme Corp" := by decide

/-- Witness for the amended C5 at input `Acme`, industry `technology`: the
hypothesis holds and the concretely generated variant differs from `Acme`. -/
theorem C5_generator_differs_witness :
    ("Acme".data.all (fun c => !isPySpace c) = true) ∧
      "Acme Technologies" ≠ "Acme" :=
  ⟨by decide,
   C5_generator_differs_for_spaceless "Acme" "technology" (rngConst 0)
     (by decide) "Acme Technologies" { rngConst 0 with pos := 1 } rfl⟩


/-! ## C4: special-case substring rules versus the keyword classifier -/

/-- The fuzzy scan performs no update when no catalog name reaches
similarity above 0.7, whatever the running state. -/
theorem fuzzyFold_no_update (s : String) (l : List (String × String))
    (h : ∀ p ∈ l, ¬ (mkRat 7 10 < seqRatio s p.1)) :
    ∀ st, l.foldl (fuzzyStep s) st = st := by
  induction l with
  | nil => intro st; rfl
  | cons p t ih =>
    intro st
    rw [List.foldl_cons]
    have hstep : fuzzyStep s st p = st := by
      unfold fuzzyStep
      rw [if_neg]
      intro hand
      exact h p (List.mem_cons_self p t) hand.2
    rw [hstep]
    exact ih (fun q hq => h q (List.mem_cons_of_mem p hq)) st

/-- No catalog name is within fuzzy reach of `zzzzbank`. -/
theorem fuzzy_all_zzzzbank :
    org_to_industry.all
      (fun p => !(decide (mkRat 7 10 < seqRatio "zzzzbank" p.1))) = true := by
  decide

/-- The fuzzy stage rejects `zzzzbank`. -/
theorem fuzzyScan_zzzzbank : fuzzyScan "zzzzbank" = (none, 0) := by
  unfold fuzzyScan
  apply fuzzyFold_no_update
  intro p hp
  have := List.all_eq_true.mp fuzzy_all_zzzzbank p hp
  simpa using this

/-- Unfolding of the uncached classifier body past the three lookup stages
when the catalog, the learned patterns and the fuzzy scan all miss. -/
theorem fast_categorize_raw_fallthrough (learned : List (String × String))
    (orgName : String)
    (h1 : dictFind? org_to_industry (strLower orgName) = none)
    (h2 : dictFind? learned (strLower orgName) = none)
    (h3 : fuzzyScan (strLower orgName) = (none, 0)) :
    fast_categorize_raw learned orgName =
      (match maxByFirst (patternScores (strLower orgName)) with
       | some (ind, score) => (ind, pyMin (mkRat 6 10) (mkRat (score * 2) 10))
       | none =>
         if ["university", "college", "school"].any
             (fun t => strContains (strLower orgName) t) then
           ("education", mkRat 7 10)
         else if ["bank", "financial"].any
             (fun t => strContains (strLower orgName) t) then
           ("finance", mkRat 7 10)
         else if ["hospital", "medical", "health"].any
             (fun t => strContains (strLower orgName) t) then
           ("healthcare", mkRat 7 10)
         else ("technology", mkRat 3 10)) := by
  simp only [fast_categorize_raw, h1, h2, h3]

/-- A keyword-scoring fold starting from a nonempty accumulator, or finding
at least one positively scored industry, ends nonempty. -/
theorem scoreFold_ne_nil (s : String) :
    ∀ (l : List (String × List String))
      (acc : List (String × Nat)),
      ((∃ p ∈ l, 0 < p.2.countP (fun pat => strContains s pat)) ∨ acc ≠ []) →
      l.foldl (fun acc p =>
        let score := p.2.countP (fun pat => strContains s pat)
        if score > 0 then acc ++ [(p.1, score)] else acc) acc ≠ [] := by
  intro l
  induction l with
  | nil =>
    intro acc h
    rcases h with ⟨p, hp, _⟩ | hne
    · cases hp
    · exact hne
  | cons q t ih =>
    intro acc h
    rw [List.foldl_cons]
    by_cases hq : 0 < q.2.countP (fun pat => strContains s pat)
    · apply ih
      right
      simp only [hq, if_pos]
      simp
    · apply ih
      rcases h with ⟨p, hp, hpos⟩ | hne
      · rcases List.mem_cons.mp hp with rfl | hpt
        · exact absurd hpos hq
        · exact Or.inl ⟨p, hpt, hpos⟩
      · right
        simpa [hq] using hne

/-- `maxByFirst` of a nonempty list yields a value. -/
theorem maxByFirst_isSome (l : List (String × Nat)) (h : l ≠ []) :
    ∃ p, maxByFirst l = some p := by
  have hgen : ∀ (t : List (String × Nat)) (q : String × Nat),
      ∃ p, t.foldl (fun acc p =>
        match acc with
        | none => some p
        | some q => if p.2 > q.2 then some p else some q) (some q) = some p := by
    intro t
    induction t with
    | nil => intro q; exact ⟨q, rfl⟩
    | cons a t2 ih =>
      intro q
      rw [List.foldl_cons]
      simp only
      by_cases hc : a.2 > q.2
      · rw [if_pos hc]
        exact ih a
      · rw [if_neg hc]
        exact ih q
  cases l with
  | nil => exact absurd rfl h
  | cons a t =>
    unfold maxByFirst
    rw [List.foldl_cons]
    exact hgen t a

/-- C4 (amended): in `fast_categorize_organization` the special-case
substring rules are evaluated AFTER the generic keyword classifier, not
before: whenever any special-case term occurs in the name the keyword stage
already produces a nonempty score table (every special-case term is itself a
keyword of the corresponding industry), and whenever the score table is
nonempty the returned result is the keyword-score result
`min(0.6, hits * 0.2)`, never the special-case result with confidence
0.7. -/
theorem C4_specialcase_after_keywords (learned : List (String × String))
    (orgName : String)
    (h1 : dictFind? org_to_industry (strLower orgName) = none)
    (h2 : dictFind? learned (strLower orgName) = none)
    (h3 : fuzzyScan (strLower orgName) = (none, 0)) :
    ((∃ t ∈ ["university", "college", "school", "bank", "financial",
        "hospital", "medical", "health"],
        strContains (strLower orgName) t = true) →
      patternScores (strLower orgName) ≠ []) ∧
    (patternScores (strLower orgName) ≠ [] →
      ∃ ind score, maxByFirst (patternScores (strLower orgName)) =
          some (ind, score) ∧
        fast_categorize_raw learned orgName =
          (ind, pyMin (mkRat 6 10) (mkRat (score * 2) 10))) := by
  constructor
  · rintro ⟨t, htmem, htc⟩
    have hck : ∀ t2 ∈ ["university", "college", "school", "bank", "financial",
        "hospital", "medical", "health"],
        industry_patterns.any (fun pr => pr.2.contains t2) = true := by decide
    have := List.any_eq_true.mp (hck t htmem)
    rcases this with ⟨pr, hpr, hprt⟩
    apply scoreFold_ne_nil
    left
    refine ⟨pr, hpr, ?_⟩
    rw [List.countP_pos_iff]
    exact ⟨t, List.mem_of_elem_eq_true hprt, htc⟩
  · intro hne
    rcases maxByFirst_isSome _ hne with ⟨⟨ind, score⟩, hmax⟩
    refine ⟨ind, score, hmax, ?_⟩
    rw [fast_categorize_raw_fallthrough learned orgName h1 h2 h3, hmax]

/-- C4 counterexample: `zzzzbank` is matched by the special-case rule
(`bank` occurs in it) and by the keyword classifier, yet the code returns
the keyword-score result `(finance, 0.2)` rather than the special-case
result with confidence 0.7 the claim requires. -/
theorem C4_keyword_shadows_specialcase_cex :
    fast_categorize_raw [] "zzzzbank" = ("finance", mkRat 2 10) ∧
    strContains (strLower "zzzzbank") "bank" = true ∧
    (mkRat 2 10 : ℚ) ≠ mkRat 7 10 := by
  refine ⟨?_, by decide, by decide⟩
  rw [fast_categorize_raw_fallthrough [] "zzzzbank" (by decide) (by decide)
    (by exact fuzzyScan_zzzzbank)]
  decide

/-- Witness for the amended C4 at `zzzzbank`: the three fallthrough
hypotheses hold and both parts of the conclusion apply. -/
theorem C4_specialcase_after_keywords_witness :
    dictFind? org_to_industry (strLower "zzzzbank") = none ∧
    dictFind? ([] : List (String × String)) (strLower "zzzzbank") = none ∧
    fuzzyScan (strLower "zzzzbank") = (none, 0) ∧
    (((∃ t ∈ ["university", "college", "school", "bank", "financial",
        "hospital", "medical", "health"],
        strContains (strLower "zzzzbank") t = true) →
      patternScores (strLower "zzzzbank") ≠ []) ∧
    (patternScores (strLower "zzzzbank") ≠ [] →
      ∃ ind score, maxByFirst (patternScores (strLower "zzzzbank")) =
          some (ind, score) ∧
        fast_categorize_raw [] "zzzzbank" =
          (ind, pyMin (mkRat 6 10) (mkRat (score * 2) 10)))) :=
  ⟨by decide, by decide, by exact fuzzyScan_zzzzbank,
   C4_specialcase_after_keywords [] "zzzzbank" (by decide) (by decide)
     fuzzyScan_zzzzbank⟩


/-! ## C8: exact catalog hits -/

/-- A successful dict lookup exhibits a member pair. -/
theorem dictFind?_mem {α : Type} {d : List (String × α)} {k : String} {v : α}
    (h : dictFind? d k = some v) : (k, v) ∈ d := by
  unfold dictFind? at h
  rcases hf : d.find? (fun p => p.1 == k) with _ | p
  · rw [hf] at h
    cases h
  · rw [hf] at h
    injection h with h2
    have hp := List.find?_some hf
    have hpm := List.mem_of_find?_eq_some hf
    have hk : p.1 = k := by simpa using hp
    rw [← hk, ← h2]
    exact hpm

/-- Every key of the reverse index is found by the lookup. -/
theorem catalog_keys_found :
    ∀ k ∈ core_db.flatMap (fun p => p.2.map strLower),
      (dictFind? org_to_industry k).isSome = true := by decide

/-- Every entry of the reverse index maps a lowered name to an industry
whose catalog list contains that name. -/
theorem org_to_industry_entries :
    ∀ p ∈ org_to_industry, p.1 ∈ (coreDbGet p.2).map strLower := by decide

/-- C8: for every name that appears verbatim (case-insensitively) in the
catalog, the classifier returns confidence 1.0 together with a category
whose catalog list contains the name; this holds whatever learned patterns
exist, since the exact lookup is the first stage.  (For the three names the
catalog lists under two industries the reverse index keeps the last write,
exactly like the Python dict it embeds.) -/
theorem C8_exact_catalog_hit (learned : List (String × String)) (name : String)
    (h : strLower name ∈ core_db.flatMap (fun p => p.2.map strLower)) :
    (fast_categorize_raw learned name).2 = 1 ∧
      strLower name ∈
        (coreDbGet (fast_categorize_raw learned name).1).map strLower := by
  have hsome := catalog_keys_found (strLower name) h
  rcases Option.isSome_iff_exists.mp hsome with ⟨c, hc⟩
  have hvals : (strLower name, c) ∈ org_to_industry := dictFind?_mem hc
  have hmem := org_to_industry_entries _ hvals
  have hraw : fast_categorize_raw learned name = (c, 1) := by
    simp only [fast_categorize_raw, hc]
  rw [hraw]
  exact ⟨rfl, hmem⟩

/-- Witness for C8 at `Goldman Sachs`: present in the catalog, classified
`1.0` with a category listing it. -/
theorem C8_exact_catalog_hit_witness :
    strLower "Goldman Sachs" ∈ core_db.flatMap (fun p => p.2.map strLower) ∧
    ((fast_categorize_raw [] "Goldman Sachs").2 = 1 ∧
      strLower "Goldman Sachs" ∈
        (coreDbGet (fast_categorize_raw [] "Goldman Sachs").1).map strLower) :=
  ⟨by decide, C8_exact_catalog_hit [] "Goldman Sachs" (by decide)⟩


/-! ## C1: replacements are re-drawn, classifications are memoized -/

/-- The cache of a state starts with the entry `(name, v)`. -/
def CacheFront (st : RState) (name : String) (v : String × ℚ) : Prop :=
  ∃ rest, st.fast_cache = (name, v) :: rest

/-- A cache access for a name sitting at the front is a hit that changes
nothing. -/
theorem memoStep_front (learned : List (String × String)) (name : String)
    (v : String × ℚ) (rest : FastCache) :
    memoStep learned ((name, v) :: rest) name = (v, (name, v) :: rest) := by
  unfold memoStep
  rw [List.find?_cons_of_pos _ (by simp)]
  simp only
  rw [List.eraseP_cons_of_pos (by simp)]

/-- The memoized classifier at a cache-front state returns the cached value
and changes nothing. -/
theorem fastCat_front (st : RState) (name : String) (v : String × ℚ)
    (h : CacheFront st name v) :
    fast_categorize_organization st name = (v, st) := by
  rcases h with ⟨rest, hc⟩
  unfold fast_categorize_organization
  rw [hc, memoStep_front]
  simp only
  congr
  exact hc.symm

/-- After any access the accessed name sits at the front of the cache with
the returned value. -/
theorem fastCat_establishes (st : RState) (name : String) :
    CacheFront (fast_categorize_organization st name).2 name
      (fast_categorize_organization st name).1 := by
  simp only [fast_categorize_organization, memoStep]
  rcases hf : st.fast_cache.find? (fun p => p.1 == name) with _ | entry
  · rw [hf]
    simp only
    refine ⟨st.fast_cache.take 1999, ?_⟩
    rw [show FAST_CACHE_MAXSIZE = 1999 + 1 from rfl, List.take_succ_cons]
  · rw [hf]
    simp only
    have hk : entry.1 = name := by simpa using List.find?_some hf
    exact ⟨st.fast_cache.eraseP (fun p => p.1 == name), by rw [hk]⟩

/-- The local-classifier fallback of the web discovery preserves a cache
front for the same name. -/
theorem discoverFallback_front (st : RState) (name : String) (v : String × ℚ)
    (h : CacheFront st name v) :
    CacheFront (discoverFallback st name).st name v := by
  unfold discoverFallback
  rw [fastCat_front st name v h]
  simp only
  split
  · exact h
  · exact h

/-- Web discovery preserves a cache front for the same name. -/
theorem discover_front (cfg : Config) (oracle : String → WebOutcome)
    (st : RState) (name : String) (v : String × ℚ)
    (h : CacheFront st name v) :
    CacheFront (discover_organization_web cfg oracle st name).st name v := by
  rcases h with ⟨rest, hc⟩
  simp only [discover_organization_web]
  split
  · exact ⟨rest, hc⟩
  · split
    · exact ⟨rest, hc⟩
    · split
      · exact ⟨rest, hc⟩
      · split
        · exact ⟨rest, hc⟩
        · split
          · split
            · exact ⟨rest, hc⟩
            · split
              · exact ⟨rest, hc⟩
              · exact discoverFallback_front _ name v ⟨rest, hc⟩
          · exact discoverFallback_front _ name v ⟨rest, hc⟩

/-- Candidate assembly for a name preserves a cache front for that name. -/
theorem getSimilar_front (cfg : Config) (oracle : String → WebOutcome)
    (st : RState) (rng : Rng) (name : String) (count fuel : Nat)
    (v : String × ℚ) (h : CacheFront st name v) :
    ∀ sim, get_similar_organizations_hybrid cfg oracle st rng name count fuel =
        some sim → CacheFront sim.st name v := by
  intro sim hsim
  simp only [get_similar_organizations_hybrid, fastCat_front st name v h] at hsim
  split at hsim
  · cases hsim
    exact h
  · have hd := discover_front cfg oracle st name v h
    obtain ⟨hst, _⟩ := gsFinish_stCalls _ _ count fuel _ rng _ _ sim hsim
    rw [hst]
    split
    · split
      · split
        · exact hd
        · exact hd
      · exact hd
    · exact h

/-- Resolving a name (with no custom mapping) leaves that name at the front
of the cache holding the classification it reported, and reports exactly
the memoized classification in the metadata locals. -/
theorem resolveOrg_locals (cfg : Config) (oracle : String → WebOutcome)
    (fuel : Nat) (st : RState) (rng : Rng) (indL : Option String)
    (confL : Option ℚ) (name : String) :
    ∀ r, resolveOrg cfg oracle [] fuel st rng indL confL name = some r →
      CacheFront r.st name (fast_categorize_organization st name).1 ∧
      r.industryLocal = some (fast_categorize_organization st name).1.1 ∧
      r.confidenceLocal = some (fast_categorize_organization st name).1.2 := by
  intro r hr
  have hest := fastCat_establishes st name
  have hdyn : ∀ rng0, ∀ r0, resolveDynamic cfg oracle fuel
      (fast_categorize_organization st name).2 rng0
      (fast_categorize_organization st name).1.1
      (fast_categorize_organization st name).1.2 name = some r0 →
      CacheFront r0.st name (fast_categorize_organization st name).1 ∧
      r0.industryLocal = some (fast_categorize_organization st name).1.1 ∧
      r0.confidenceLocal = some (fast_categorize_organization st name).1.2 := by
    intro rng0 r0 hr0
    unfold resolveDynamic at hr0
    split at hr0
    · cases hr0
    · rename_i sim hsim
      have hfront := getSimilar_front cfg oracle _ rng0 name 5 fuel _ hest sim
        hsim
      split at hr0
      · unfold genFallback at hr0
        split at hr0
        · cases hr0
        · cases hr0
          exact ⟨hfront, rfl, rfl⟩
      · split at hr0
        · cases hr0
        · split at hr0
          · unfold genFallback at hr0
            split at hr0
            · cases hr0
            · cases hr0
              exact ⟨hfront, rfl, rfl⟩
          · cases hr0
            exact ⟨hfront, rfl, rfl⟩
  simp only [resolveOrg, dictFind?, List.find?_nil] at hr
  split at hr
  · rename_i ind heq
    simp at heq
  · split at hr
    · rename_i c rng' heq2
      split at hr
      · exact hdyn _ r hr
      · cases hr
        exact ⟨hest, rfl, rfl⟩
    · exact hdyn _ r hr

/-- C1 (amended): resolving the same name twice in a row is NOT memoized at
the replacement level (see the counterexample: the replacement is re-drawn
at random each time), but the classification metadata is: the second call
reports the identical `(industry, confidence)` pair, served from the
`lru_cache` entry the first call left at the front of the cache. -/
theorem C1_categorization_stable (cfg : Config) (oracle : String → WebOutcome)
    (fuel fuel2 : Nat) (st : RState) (rng rng2 : Rng) (indL : Option String)
    (confL : Option ℚ) (name : String) :
    ∀ r1 r2, resolveOrg cfg oracle [] fuel st rng indL confL name = some r1 →
      resolveOrg cfg oracle [] fuel2 r1.st rng2 r1.industryLocal
        r1.confidenceLocal name = some r2 →
      r2.industryLocal = r1.industryLocal ∧
        r2.confidenceLocal = r1.confidenceLocal := by
  intro r1 r2 h1 h2
  obtain ⟨hcf1, hil1, hcl1⟩ := resolveOrg_locals cfg oracle fuel st rng indL
    confL name r1 h1
  obtain ⟨_, hil2, hcl2⟩ := resolveOrg_locals cfg oracle fuel2 r1.st rng2
    r1.industryLocal r1.confidenceLocal name r2 h2
  rw [fastCat_front r1.st name _ hcf1] at hil2 hcl2
  rw [hil1, hcl1, hil2, hcl2]
  exact ⟨rfl, rfl⟩

/-- C1 counterexample: two successive resolve calls for `Microsoft` on the
same instance state return different replacement strings (`Apple`, then
`Google`): replacements are chosen at random on every call, not memoized. -/
theorem C1_replacement_not_memoized_cex :
    ((replace_organizations_hybrid cfg5 oracleExn [] 0 initState rngId
        "Microsoft" [("Microsoft", 0, 9)]).map
      (fun r => (dictFind? r.replacements "Microsoft",
        (replace_organizations_hybrid cfg5 oracleExn [] 0 r.st r.rng
            "Microsoft" [("Microsoft", 0, 9)]).map
          (fun r2 => dictFind? r2.replacements "Microsoft")))) =
      some (some "Apple", some (some "Google")) ∧
    ("Apple" : String) ≠ "Google" := ⟨by decide, by decide⟩

/-- Witness for the amended C1: a concrete pair of back-to-back resolve
calls for `Microsoft` whose reported metadata coincides. -/
theorem C1_categorization_stable_witness :
    ((resolveOrg cfg5 oracleExn [] 0 initState rngId none none
        "Microsoft").bind (fun r1 =>
      (resolveOrg cfg5 oracleExn [] 0 r1.st r1.rng r1.industryLocal
          r1.confidenceLocal "Microsoft").map
        (fun r2 => decide (r2.industryLocal = r1.industryLocal ∧
          r2.confidenceLocal = r1.confidenceLocal)))) = some true := by
  have hboth : ((resolveOrg cfg5 oracleExn [] 0 initState rngId none none
      "Microsoft").bind (fun r1 =>
        (resolveOrg cfg5 oracleExn [] 0 r1.st r1.rng r1.industryLocal
          r1.confidenceLocal "Microsoft").map (fun r2 => (r1, r2)))).isSome =
      true := rfl
  rcases Option.isSome_iff_exists.mp hboth with ⟨⟨r1, r2⟩, hpair⟩
  rcases Option.bind_eq_some.mp hpair with ⟨r1', h1, hmap⟩
  rcases Option.map_eq_some'.mp hmap with ⟨r2', h2, heq2⟩
  cases heq2
  have hmain := C1_categorization_stable cfg5 oracleExn 0 0 initState rngId
    r1.rng none none "Microsoft" r1 r2 h1 h2
  rw [h1]
  simp only [Option.some_bind]
  rw [h2]
  simp only [Option.map_some']
  rw [decide_eq_true hmain]


/-! ## C3: which enrichment failures populate the failure set -/

/-- No catalog name is within fuzzy reach of `zzqx`. -/
theorem fuzzy_all_zzqx :
    org_to_industry.all
      (fun p => !(decide (mkRat 7 10 < seqRatio "zzqx" p.1))) = true := by
  decide

/-- The fuzzy stage rejects `zzqx`. -/
theorem fuzzyScan_zzqx : fuzzyScan "zzqx" = (none, 0) := by
  unfold fuzzyScan
  apply fuzzyFold_no_update
  intro p hp
  have := List.all_eq_true.mp fuzzy_all_zzqx p hp
  simpa using this

/-- The classifier value of `zzqx` with no learned patterns: the default
`(technology, 0.3)` (no catalog hit, no fuzzy match, no keyword, no special
term). -/
theorem raw_zzqx : fast_categorize_raw [] "zzqx" = ("technology", mkRat 3 10) := by
  rw [fast_categorize_raw_fallthrough [] "zzqx" (by decide) (by decide)
    fuzzyScan_zzqx]
  decide

/-- A name just added to the failure set is contained in it. -/
theorem setAdd_contains (s : List String) (x : String) :
    (setAdd s x).contains x = true := by
  unfold setAdd
  split
  · assumption
  · exact List.elem_eq_true_of_mem
      (List.mem_append_right _ (List.mem_singleton.mpr rfl))

/-- A name in the failure set short-circuits web discovery entirely: no
request, no state change, no result. -/
theorem discover_failed_skip (cfg : Config) (oracle : String → WebOutcome)
    (st : RState) (name : String)
    (h : st.failed_lookups.contains name = true) :
    discover_organization_web cfg oracle st name = ⟨none, st, false⟩ := by
  unfold discover_organization_web
  repeat' split
  all_goals first
    | rfl
    | exact absurd h (by assumption)

/-- C3 (amended): an enrichment attempt that raises an exception (timeout,
connection error, malformed payload) returns none AND adds the name to the
failure set, after which the name never triggers another network request
within the run; a not-found or unusable-summary response, by contrast,
records nothing (see the counterexample) and can be retried. -/
theorem C3_exception_adds_failure (cfg : Config) (oracle : String → WebOutcome)
    (st : RState) (name : String)
    (henable : cfg.enable_web_fallback = true)
    (hnf : st.failed_lookups.contains name = false)
    (hbudget : st.web_request_count < cfg.max_web_requests)
    (hexn : oracle name = .exn) :
    (discover_organization_web cfg oracle st name).info = none ∧
    (discover_organization_web cfg oracle st
        name).st.failed_lookups.contains name = true ∧
    ∀ oracle2 : String → WebOutcome,
      discover_organization_web cfg oracle2
        (discover_organization_web cfg oracle st name).st name =
      ⟨none, (discover_organization_web cfg oracle st name).st, false⟩ := by
  have h1 : discover_organization_web cfg oracle st name =
      ⟨none,
       { failed_lookups := setAdd st.failed_lookups name,
         web_request_count := st.web_request_count + 1,
         learned_patterns := st.learned_patterns,
         dynamic_cache := st.dynamic_cache,
         fast_cache := st.fast_cache }, true⟩ := by
    unfold discover_organization_web
    rw [if_neg (by simp [henable]),
      if_neg (by simp only [hnf]; exact Bool.false_ne_true),
      if_neg (Nat.not_le.mpr hbudget), hexn]
  rw [h1]
  refine ⟨rfl, setAdd_contains st.failed_lookups name, ?_⟩
  intro oracle2
  exact discover_failed_skip cfg oracle2 _ name
    (setAdd_contains st.failed_lookups name)

/-- C3 counterexample: a not-found (404) enrichment attempt for a
low-confidence name returns none yet records NOTHING in the failure set,
and the very same name triggers a second network request on the next call,
contrary to the claim. -/
theorem C3_notfound_not_in_failureset_cex :
    ((discover_organization_web cfg5 oracle404 stZzqx "zzqx").info = none ∧
     (discover_organization_web cfg5 oracle404 stZzqx
        "zzqx").st.failed_lookups = [] ∧
     (discover_organization_web cfg5 oracle404 stZzqx "zzqx").madeRequest =
       true) ∧
    (discover_organization_web cfg5 oracle404
        (discover_organization_web cfg5 oracle404 stZzqx "zzqx").st
        "zzqx").madeRequest = true := by
  exact ⟨⟨by decide, by decide, by decide⟩, by decide⟩

/-- Witness for the amended C3 at name `Zzqy` with an always-raising
oracle. -/
theorem C3_exception_adds_failure_witness :
    cfg5.enable_web_fallback = true ∧
    initState.failed_lookups.contains "Zzqy" = false ∧
    initState.web_request_count < cfg5.max_web_requests ∧
    oracleExn "Zzqy" = .exn ∧
    (discover_organization_web cfg5 oracleExn initState "Zzqy").info = none ∧
    (discover_organization_web cfg5 oracleExn initState
        "Zzqy").st.failed_lookups.contains "Zzqy" = true ∧
    discover_organization_web cfg5 oracle404
        (discover_organization_web cfg5 oracleExn initState "Zzqy").st
        "Zzqy" =
      ⟨none, (discover_organization_web cfg5 oracleExn initState "Zzqy").st,
        false⟩ := by
  have h := C3_exception_adds_failure cfg5 oracleExn initState "Zzqy" rfl
    (by decide) (by decide) rfl
  exact ⟨rfl, by decide, by decide, rfl, h.1, h.2.1, h.2.2 oracle404⟩


/-! ## Candidate-pool facts shared by C6, C7 and C9 -/

/-- A nodup list included in another list is at most as long. -/
theorem nodup_subset_length_le {α : Type} [DecidableEq α] {l m : List α}
    (hn : l.Nodup) (hs : l ⊆ m) : l.length ≤ m.length := by
  calc l.length = l.toFinset.card := (List.toFinset_card_of_nodup hn).symm
    _ ≤ m.toFinset.card := Finset.card_le_card
        (fun x hx => List.mem_toFinset.mpr (hs (List.mem_toFinset.mp hx)))
    _ ≤ m.length := List.toFinset_card_le m

/-- Disjunction bound for Boolean counts. -/
theorem countP_or_le {α : Type} (p q : α → Bool) (l : List α) :
    l.countP (fun x => p x || q x) ≤ l.countP p + l.countP q := by
  induction l with
  | nil => simp
  | cons a t ih =>
    rcases hp : p a with _ | _ <;> rcases hq : q a with _ | _ <;>
      simp [List.countP_cons, hp, hq] <;> omega

/-- In a nodup list, at most `|pool|` elements belong to `pool`. -/
theorem countP_contains_le {l pool : List String} (hn : l.Nodup) :
    l.countP (fun o => pool.contains o) ≤ pool.length := by
  rw [List.countP_eq_length_filter]
  refine nodup_subset_length_le (hn.filter _) ?_
  intro x hx
  have := List.of_mem_filter hx
  exact List.mem_of_elem_eq_true this

/-- In a list with pairwise distinct lowered names, at most one element
lowers to any given key. -/
theorem countP_lower_le_one {l : List String} {n : String}
    (hn : (l.map strLower).Nodup) :
    l.countP (fun o => strLower o == n) ≤ 1 := by
  have h1 : l.countP (fun o => strLower o == n) =
      (l.map strLower).countP (fun s => s == n) := by
    rw [List.countP_map]
    rfl
  rw [h1, ← List.count]
  exact List.nodup_iff_count_le_one.mp hn n

/-- Complement split for Boolean counts. -/
theorem countP_not_add {α : Type} (p : α → Bool) (l : List α) :
    l.countP p + l.countP (fun a => !(p a)) = l.length := by
  induction l with
  | nil => rfl
  | cons a t ih =>
    cases hp : p a <;> simp [List.countP_cons, hp] <;> omega

/-- Size of the related-industry extension filter: all but at most
`|pool| + 1` of the candidates survive the two exclusions. -/
theorem filter_exclusion_bound (l pool : List String) (n : String)
    (hn : l.Nodup) (hln : (l.map strLower).Nodup) :
    l.length - pool.length - 1 ≤
      (l.filter (fun o => !pool.contains o && strLower o != n)).length := by
  rw [← List.countP_eq_length_filter]
  have hsplit := countP_not_add
    (fun o => !pool.contains o && strLower o != n) l
  have hneg : l.countP (fun o => !(!pool.contains o && strLower o != n)) ≤
      pool.length + 1 := by
    have heq : l.countP (fun o => !(!pool.contains o && strLower o != n)) =
        l.countP (fun o => pool.contains o || strLower o == n) := by
      apply List.countP_congr
      intro x _
      cases hcx : pool.contains x <;> cases hlx : strLower x == n <;>
        simp [hcx, hlx] <;> simpa using hlx
    calc l.countP (fun o => !(!pool.contains o && strLower o != n)) =
        l.countP (fun o => pool.contains o || strLower o == n) := heq
      _ ≤ l.countP (fun o => pool.contains o) +
          l.countP (fun o => strLower o == n) := countP_or_le _ _ l
      _ ≤ pool.length + 1 :=
          Nat.add_le_add (countP_contains_le hn) (countP_lower_le_one hln)
  omega

/-- Extension never shrinks the pool. -/
theorem extendRelated_mono (n : String) (count : Nat) :
    ∀ (rs : List String) (pool : List String),
      pool.length ≤ (extendRelated n count rs pool).length := by
  intro rs
  induction rs with
  | nil => intro pool; exact Nat.le_refl _
  | cons r t ih =>
    intro pool
    unfold extendRelated
    split
    · exact Nat.le_refl _
    · calc pool.length ≤ (pool ++ ((coreDbGet r).filter
          (fun o => !pool.contains o && strLower o != n))).length := by
            rw [List.length_append]; omega
        _ ≤ _ := ih _

/-- Extension only adds catalog names that do not lower to the excluded
key. -/
theorem extendRelated_pred (n : String) (count : Nat) :
    ∀ (rs : List String) (pool : List String),
      (∀ x ∈ pool, strLower x ≠ n ∧ x ∈ core_db.flatMap (fun p => p.2)) →
      ∀ x ∈ extendRelated n count rs pool,
        strLower x ≠ n ∧ x ∈ core_db.flatMap (fun p => p.2) := by
  intro rs
  induction rs with
  | nil => intro pool hp; exact hp
  | cons r t ih =>
    intro pool hp
    unfold extendRelated
    split
    · exact hp
    · apply ih
      intro x hx
      rcases List.mem_append.mp hx with hx1 | hx2
      · exact hp x hx1
      · have hf := List.of_mem_filter hx2
        have hmem := List.mem_of_mem_filter hx2
        constructor
        · have := (Bool.and_eq_true _ _).mp hf
          simpa using this.2
        · have hcd : ∃ orgs, (r, orgs) ∈ core_db ∧ x ∈ orgs := by
            unfold coreDbGet at hmem
            rcases hfind : core_db.find? (fun p => p.1 == r) with _ | pr
            · rw [hfind] at hmem
              cases hmem
            · rw [hfind] at hmem
              refine ⟨pr.2, ?_, hmem⟩
              have hk : pr.1 = r := by
                simpa using List.find?_some hfind
              rw [← hk]
              exact List.mem_of_find?_eq_some hfind
          rcases hcd with ⟨orgs, hin, hxin⟩
          exact List.mem_flatMap.mpr ⟨(r, orgs), hin, hxin⟩

/-- Every related-industry list starts with an industry of at least 18
pairwise distinct catalog names with pairwise distinct lowered forms. -/
theorem relatedIndustries_head (c : String) :
    ∃ r1 rs, relatedIndustries c = r1 :: rs ∧
      18 ≤ (coreDbGet r1).length ∧ (coreDbGet r1).Nodup ∧
      ((coreDbGet r1).map strLower).Nodup := by
  unfold relatedIndustries
  rcases hf : dictFind? relationships c with _ | v
  · exact ⟨"technology", [], rfl, by decide, by decide, by decide⟩
  · have hv := dictFind?_mem hf
    have hall : ∀ p ∈ relationships, ∃ r1 rs, p.2 = r1 :: rs ∧
        18 ≤ (coreDbGet r1).length ∧ (coreDbGet r1).Nodup ∧
        ((coreDbGet r1).map strLower).Nodup := by
      intro p hp
      have hgood : ∀ q ∈ relationships, (!q.2.isEmpty &&
          (decide (18 ≤ (coreDbGet (q.2.headD "")).length) &&
           (decide ((coreDbGet (q.2.headD "")).Nodup) &&
            decide (((coreDbGet (q.2.headD "")).map strLower).Nodup)))) =
          true := by decide
      have := hgood p hp
      rcases hq : p.2 with _ | ⟨r1, rs⟩
      · rw [hq] at this
        simp at this
      · refine ⟨r1, rs, rfl, ?_, ?_, ?_⟩ <;>
        · rw [hq] at this
          simp only [List.isEmpty_cons, Bool.not_false, Bool.true_and,
            List.headD_cons, Bool.and_eq_true, decide_eq_true_eq] at this
          first
            | exact this.1
            | exact this.2.1
            | exact this.2.2
    rcases hall (c, v) hv with ⟨r1, rs, hv2, h18, hnd, hndl⟩
    exact ⟨r1, rs, hv2, h18, hnd, hndl⟩

/-- Starting below the requested count 5, the related-industry extension
always reaches at least 5 candidates: the first related industry alone
contributes enough. -/
theorem extendRelated_reaches (c n : String) (pool : List String)
    (hlt : pool.length < 5) :
    5 ≤ (extendRelated n 5 (relatedIndustries c) pool).length := by
  rcases relatedIndustries_head c with ⟨r1, rs, heq, h18, hnd, hndl⟩
  rw [heq]
  unfold extendRelated
  rw [if_neg (by omega)]
  have hbound := filter_exclusion_bound (coreDbGet r1) pool n hnd hndl
  have hmono := extendRelated_mono n 5 rs
    (pool ++ ((coreDbGet r1).filter (fun o => !pool.contains o && strLower o != n)))
  have hlen : 5 ≤ (pool ++ ((coreDbGet r1).filter
      (fun o => !pool.contains o && strLower o != n))).length := by
    rw [List.length_append]
    omega
  omega


/-- Moving the selected element to the front is a permutation. -/
theorem perm_getD_eraseIdx :
    ∀ (l : List String) (i : Nat), i < l.length →
      List.Perm (l.getD i "" :: l.eraseIdx i) l := by
  intro l
  induction l with
  | nil =>
    intro i hi
    cases hi
  | cons a t ih =>
    intro i hi
    cases i with
    | zero => exact List.Perm.refl _
    | succ j =>
      have hj : j < t.length := Nat.lt_of_succ_lt_succ hi
      have h1 : List.Perm (t.getD j "" :: a :: t.eraseIdx j)
          (a :: (t.getD j "" :: t.eraseIdx j)) :=
        List.Perm.swap a (t.getD j "") (t.eraseIdx j)
      have h2 : List.Perm (a :: (t.getD j "" :: t.eraseIdx j)) (a :: t) :=
        List.Perm.cons a (ih j hj)
      exact h1.trans h2

/-- The shuffle worker with exact fuel returns a permutation. -/
theorem pyShuffleAux_perm :
    ∀ (fuel : Nat) (l : List String) (r : Rng), l.length = fuel →
      List.Perm (pyShuffleAux fuel l r).1 l := by
  intro fuel
  induction fuel with
  | zero =>
    intro l r h
    rw [List.length_eq_zero.mp h]
    exact List.Perm.refl _
  | succ n ih =>
    intro l r h
    cases l with
    | nil => cases h
    | cons a t =>
      unfold pyShuffleAux
      simp only
      have hlen : 0 < (a :: t).length := Nat.succ_pos _
      have hi : r.seq r.pos % (a :: t).length < (a :: t).length :=
        Nat.mod_lt _ hlen
      have herase : ((a :: t).eraseIdx (r.seq r.pos % (a :: t).length)).length
          = n := by
        have he := List.length_eraseIdx_add_one hi
        omega
      exact List.Perm.trans
        (List.Perm.cons _ (ih _ _ herase))
        (perm_getD_eraseIdx (a :: t) _ hi)

/-- `random.shuffle` returns a permutation of its input. -/
theorem pyShuffle_perm (l : List String) (r : Rng) :
    List.Perm (pyShuffle l r).1 l :=
  pyShuffleAux_perm l.length l r rfl

/-- `random.choice` on a nonempty list yields a member. -/
theorem pyChoice_some_of_ne_nil {α : Type} (l : List α) (r : Rng)
    (h : l ≠ []) :
    ∃ x r', pyChoice l r = (some x, r') ∧ x ∈ l := by
  simp only [pyChoice, Rng.next]
  have hlen : 0 < l.length := List.length_pos.mpr h
  have hi : (r.seq r.pos % l.length) < l.length := Nat.mod_lt _ hlen
  rcases hget : l.get? (r.seq r.pos % l.length) with _ | x
  · rw [List.get?_eq_none] at hget
    omega
  · exact ⟨x, _, rfl, List.get?_mem hget⟩

/-- The generator variant list is never empty. -/
theorem generationVariations_ne_nil (orgName industry : String) :
    generationVariations orgName industry ≠ [] := by
  simp only [generationVariations]
  split <;> simp

/-- The generator always yields a variant. -/
theorem generate_some (orgName industry : String) (rng : Rng) :
    ∃ s rng', generate_contextual_organization orgName industry rng =
        (some s, rng') ∧ s ∈ generationVariations orgName industry := by
  unfold generate_contextual_organization
  exact pyChoice_some_of_ne_nil _ rng (generationVariations_ne_nil orgName industry)

/-- The synthesis loop is a no-op once the pool has reached the requested
count, for any fuel. -/
theorem synthLoop_noop (orgName industry : String) (count : Nat)
    (fuel : Nat) (pool : List String) (rng : Rng) (h : count ≤ pool.length) :
    synthLoop orgName industry count fuel pool rng = some (pool, rng) := by
  cases fuel with
  | zero => rfl
  | succ n =>
    unfold synthLoop
    rw [if_neg (by omega)]

/-- The synthesis loop never raises. -/
theorem synthLoop_isSome (orgName industry : String) (count : Nat) :
    ∀ (fuel : Nat) (pool : List String) (rng : Rng),
      ∃ out, synthLoop orgName industry count fuel pool rng = some out := by
  intro fuel
  induction fuel with
  | zero => exact fun pool rng => ⟨(pool, rng), rfl⟩
  | succ n ih =>
    intro pool rng
    unfold synthLoop
    split
    · rcases generate_some orgName industry rng with ⟨s, r', hgen, _⟩
      rw [hgen]
      exact ih _ _
    · exact ⟨(pool, rng), rfl⟩

/-- Catalog membership transfers from `coreDbGet` to the flattened
catalog. -/
theorem coreDbGet_mem_flatMap (r x : String) (h : x ∈ coreDbGet r) :
    x ∈ core_db.flatMap (fun p => p.2) := by
  unfold coreDbGet at h
  rcases hfind : core_db.find? (fun p => p.1 == r) with _ | pr
  · rw [hfind] at h
    cases h
  · rw [hfind] at h
    refine List.mem_flatMap.mpr ⟨pr, List.mem_of_find?_eq_some hfind, h⟩

/-- Every element of the lower-excluding filter of a category is a catalog
name that does not lower to the key. -/
theorem filter_pred_sound (c2 n : String) :
    ∀ x ∈ (coreDbGet c2).filter (fun o => strLower o != n),
      strLower x ≠ n ∧ x ∈ core_db.flatMap (fun p => p.2) := by
  intro x hx
  constructor
  · have := List.of_mem_filter hx
    simpa using this
  · exact coreDbGet_mem_flatMap c2 x (List.mem_of_mem_filter hx)

/-- Soundness of the assembly tail at the requested count 5: a successful
result is nonempty and consists of catalog names that do not lower to the
input name.  (The synthesis loop is never entered: the pool already holds
at least five candidates after the related-industry extension.) -/
theorem gsFinish_sound (orgName industry : String) (fuel : Nat) (st : RState)
    (rng : Rng) (calls : Nat) (similar : List String)
    (hpred : ∀ x ∈ similar, strLower x ≠ strLower orgName ∧
      x ∈ core_db.flatMap (fun p => p.2)) :
    ∀ sim, gsFinish orgName industry 5 fuel st rng calls similar = some sim →
      sim.orgs ≠ [] ∧ ∀ x ∈ sim.orgs, strLower x ≠ strLower orgName ∧
        x ∈ core_db.flatMap (fun p => p.2) := by
  intro sim hsim
  simp only [gsFinish] at hsim
  set pool0 := (if similar.length < 5 then
      extendRelated (strLower orgName) 5 (relatedIndustries industry) similar
    else similar) with hpool0
  have hlen : 5 ≤ pool0.length := by
    rw [hpool0]
    split
    · rename_i h5
      exact extendRelated_reaches industry (strLower orgName) similar h5
    · rename_i h5
      omega
  have hpred0 : ∀ x ∈ pool0, strLower x ≠ strLower orgName ∧
      x ∈ core_db.flatMap (fun p => p.2) := by
    rw [hpool0]
    split
    · exact extendRelated_pred (strLower orgName) 5 _ similar hpred
    · exact hpred
  rw [synthLoop_noop orgName industry 5 fuel pool0 rng hlen] at hsim
  cases hsim
  have hperm := pyShuffle_perm pool0 rng
  constructor
  · intro hnil
    simp only at hnil
    have h0 : (List.take 5 (pyShuffle pool0 rng).1).length = 0 := by
      rw [hnil]
      rfl
    rw [List.length_take, hperm.length_eq] at h0
    omega
  · intro x hx
    simp only at hx
    exact hpred0 x (hperm.mem_iff.mp (List.mem_of_mem_take hx))

/-- Soundness of candidate assembly at the count used by the replacement
loop: a successful result is a nonempty list of catalog names none of which
lowers to the input name. -/
theorem getSimilar_sound (cfg : Config) (oracle : String → WebOutcome)
    (st : RState) (rng : Rng) (name : String) (fuel : Nat) :
    ∀ sim, get_similar_organizations_hybrid cfg oracle st rng name 5 fuel =
        some sim →
      sim.orgs ≠ [] ∧ ∀ x ∈ sim.orgs, strLower x ≠ strLower name ∧
        x ∈ core_db.flatMap (fun p => p.2) := by
  intro sim hsim
  simp only [get_similar_organizations_hybrid] at hsim
  split at hsim
  · rename_i hcond
    cases hsim
    set fl := (coreDbGet (fast_categorize_organization st name).1.1).filter
      (fun o => strLower o != strLower name) with hfl
    have hperm := pyShuffle_perm fl rng
    have h5 := hcond.1
    constructor
    · intro hnil
      simp only at hnil
      have h0 : (List.take 5 (pyShuffle fl rng).1).length = 0 := by
        rw [hnil]
        rfl
      rw [List.length_take, hperm.length_eq] at h0
      omega
    · intro x hx
      simp only at hx
      have hxf : x ∈ fl := hperm.mem_iff.mp (List.mem_of_mem_take hx)
      rw [hfl] at hxf
      exact filter_pred_sound _ (strLower name) x hxf
  · split at hsim
    · split at hsim
      · split at hsim
        · exact gsFinish_sound name _ fuel _ rng _ _
            (filter_pred_sound _ (strLower name)) sim hsim
        · exact gsFinish_sound name _ fuel _ rng _ _
            (filter_pred_sound _ (strLower name)) sim hsim
      · exact gsFinish_sound name _ fuel _ rng _ _
          (filter_pred_sound _ (strLower name)) sim hsim
    · exact gsFinish_sound name _ fuel _ rng _ _
        (filter_pred_sound _ (strLower name)) sim hsim


/-! ## C6: the replacement never echoes the input -/

/-- The database pick yields a catalog candidate whose lowered form differs
from the lowered input. -/
theorem resolveDb_sound (industry : String) (confidence : ℚ) (orgName : String)
    (rng : Rng) :
    ∀ c rng', resolveDb industry confidence orgName rng = some (c, rng') →
      strLower c ≠ strLower orgName ∧ c ∈ core_db.flatMap (fun p => p.2) := by
  intro c rng' hc
  simp only [resolveDb] at hc
  split at hc
  · split at hc
    · cases hc
    · split at hc
      · cases hc
      · split at hc
        · rename_i x r2 hchoice
          cases hc
          have hmem := pyChoice_mem _ rng _ _ hchoice
          have h1 := List.of_mem_filter hmem
          exact ⟨by simpa using h1,
            coreDbGet_mem_flatMap industry _ (List.mem_of_mem_filter hmem)⟩
        · cases hc
  · cases hc

/-- No catalog name is empty. -/
theorem catalog_no_empty : ∀ x ∈ core_db.flatMap (fun p => p.2), x ≠ "" := by
  decide

/-- The dynamic path yields a candidate whose lowered form differs from the
lowered input: the assembled pool is nonempty and all catalog names, so the
generator fallback is never reached. -/
theorem resolveDynamic_sound (cfg : Config) (oracle : String → WebOutcome)
    (fuel : Nat) (st : RState) (rng : Rng) (industry : String)
    (confidence : ℚ) (orgName : String) :
    ∀ r, resolveDynamic cfg oracle fuel st rng industry confidence orgName =
        some r → strLower r.replacement ≠ strLower orgName := by
  intro r hr
  unfold resolveDynamic at hr
  split at hr
  · cases hr
  · rename_i sim hsim
    obtain ⟨hne, hpred⟩ := getSimilar_sound cfg oracle st rng orgName fuel sim
      hsim
    split at hr
    · rename_i horgs
      exact absurd horgs hne
    · rename_i hd tl horgs
      split at hr
      · cases hr
      · rename_i c rng2 hchoice
        have hcm : c ∈ sim.orgs := pyChoice_mem sim.orgs sim.rng c rng2 hchoice
        have hcpred := hpred c hcm
        split at hr
        · rename_i hcempty
          exfalso
          exact catalog_no_empty c hcpred.2 (by simpa using hcempty)
        · cases hr
          exact hcpred.1

/-- C6: whenever the resolved category holds at least one candidate other
than the input (case-insensitively), the replacement chosen by the
resolution step differs from the input case-insensitively.  (The code in
fact guarantees this unconditionally: even with an empty same-category
pool the related-industry extension refills the pool with other catalog
names before any synthetic name could echo the input.) -/
theorem C6_replacement_differs (cfg : Config) (oracle : String → WebOutcome)
    (fuel : Nat) (st : RState) (rng : Rng) (indL : Option String)
    (confL : Option ℚ) (name : String)
    (h : 1 ≤ ((coreDbGet (fast_categorize_organization st name).1.1).filter
        (fun o => strLower o != strLower name)).length) :
    ∀ r, resolveOrg cfg oracle [] fuel st rng indL confL name = some r →
      strLower r.replacement ≠ strLower name := by
  intro r hr
  simp only [resolveOrg, dictFind?, List.find?_nil] at hr
  split at hr
  · rename_i ind heq
    simp at heq
  · split at hr
    · rename_i c rng' heq2
      have hdb := resolveDb_sound _ _ name rng c rng' heq2
      split at hr
      · exact resolveDynamic_sound cfg oracle fuel _ _ _ _ name r hr
      · cases hr
        exact hdb.1
    · exact resolveDynamic_sound cfg oracle fuel _ _ _ _ name r hr

/-- Witness for C6 at `Microsoft`: pool of 34 other technology names, and
the concrete replacement indeed differs case-insensitively. -/
theorem C6_replacement_differs_witness :
    (1 ≤ ((coreDbGet
        (fast_categorize_organization initState "Microsoft").1.1).filter
        (fun o => strLower o != strLower "Microsoft")).length) ∧
    ((resolveOrg cfg5 oracleExn [] 0 initState rngId none none
        "Microsoft").map
      (fun r => decide (strLower r.replacement ≠ strLower "Microsoft"))) =
      some true := by
  constructor
  · decide
  · have hs : (resolveOrg cfg5 oracleExn [] 0 initState rngId none none
        "Microsoft").isSome = true := rfl
    rcases Option.isSome_iff_exists.mp hs with ⟨r, hr⟩
    rw [hr]
    simp only [Option.map_some']
    rw [decide_eq_true (C6_replacement_differs cfg5 oracleExn 0 initState
      rngId none none "Microsoft" (by decide) r hr)]

/-! ## C7: the replacement operation never raises -/

/-- The assembly tail always yields a result. -/
theorem gsFinish_isSome (orgName industry : String) (count fuel : Nat)
    (st : RState) (rng : Rng) (calls : Nat) (similar : List String) :
    (gsFinish orgName industry count fuel st rng calls similar).isSome =
      true := by
  simp only [gsFinish]
  rcases synthLoop_isSome orgName industry count fuel
      (if similar.length < count then
        extendRelated (strLower orgName) count (relatedIndustries industry)
          similar
       else similar) rng with ⟨⟨pool, rng'⟩, hout⟩
  rw [hout]
  rfl

/-- Candidate assembly always yields a result. -/
theorem getSimilar_isSome (cfg : Config) (oracle : String → WebOutcome)
    (st : RState) (rng : Rng) (name : String) (count fuel : Nat) :
    (get_similar_organizations_hybrid cfg oracle st rng name count
        fuel).isSome = true := by
  simp only [get_similar_organizations_hybrid]
  split
  · rfl
  · exact gsFinish_isSome name _ count fuel _ rng _ _

/-- The generator fallback always yields a result. -/
theorem genFallback_isSome (orgName industry : String) (confidence : ℚ)
    (st : RState) (rng : Rng) (calls : Nat) :
    (genFallback orgName industry confidence st rng calls).isSome = true := by
  unfold genFallback
  rcases generate_some orgName industry rng with ⟨s, r', hgen, _⟩
  rw [hgen]
  rfl

/-- The dynamic path always yields a result. -/
theorem resolveDynamic_isSome (cfg : Config) (oracle : String → WebOutcome)
    (fuel : Nat) (st : RState) (rng : Rng) (industry : String)
    (confidence : ℚ) (orgName : String) :
    (resolveDynamic cfg oracle fuel st rng industry confidence
        orgName).isSome = true := by
  unfold resolveDynamic
  split
  · rename_i hnone
    have := getSimilar_isSome cfg oracle st rng orgName 5 fuel
    rw [hnone] at this
    cases this
  · rename_i sim hsim
    split
    · exact genFallback_isSome orgName industry confidence sim.st sim.rng
        sim.webCalls
    · rename_i hd tl horgs
      split
      · rename_i r2 hchoice
        exfalso
        rcases pyChoice_some_of_ne_nil sim.orgs sim.rng
            (by rw [horgs]; exact List.cons_ne_nil hd tl) with ⟨x, r', hx, _⟩
        rw [hx] at hchoice
        cases hchoice
      · rename_i c rng2 hchoice
        split
        · exact genFallback_isSome orgName industry confidence sim.st rng2
            sim.webCalls
        · rfl

/-- One resolution step always yields a result. -/
theorem resolveOrg_isSome (cfg : Config) (oracle : String → WebOutcome)
    (custom : List (String × String)) (fuel : Nat) (st : RState) (rng : Rng)
    (indL : Option String) (confL : Option ℚ) (name : String) :
    (resolveOrg cfg oracle custom fuel st rng indL confL name).isSome =
      true := by
  simp only [resolveOrg]
  split
  · rfl
  · split
    · split
      · exact resolveDynamic_isSome cfg oracle fuel _ _ _ _ name
      · rfl
    · exact resolveDynamic_isSome cfg oracle fuel _ _ _ _ name

/-- The replacement loop always yields a result. -/
theorem replaceLoop_isSome (cfg : Config) (oracle : String → WebOutcome)
    (custom : List (String × String)) (fuel : Nat) :
    ∀ (orgsL : List (String × Nat × Nat)) (text : String)
      (reps : List (String × String)) (meta : List (String × MetaInfo))
      (st : RState) (rng : Rng) (indL : Option String) (confL : Option ℚ)
      (calls : Nat),
      (replaceLoop cfg oracle custom fuel orgsL text reps meta st rng indL
        confL calls).isSome = true := by
  intro orgsL
  induction orgsL with
  | nil =>
    intro text reps meta st rng indL confL calls
    rfl
  | cons p rest ih =>
    intro text reps meta st rng indL confL calls
    obtain ⟨name, s, e⟩ := p
    unfold replaceLoop
    split
    · rename_i hnone
      have := resolveOrg_isSome cfg oracle custom fuel st rng indL confL name
      rw [hnone] at this
      cases this
    · rename_i r hr
      split
      · exact ih _ _ _ _ _ _ _ _
      · exact ih _ _ _ _ _ _ _ _

/-- C7: the replacement operation never raises for any well-formed input:
every potentially raising spot (the random picks) is guarded, enrichment
failures are caught, and the worst case falls through to a synthesized or
default-category replacement. -/
theorem C7_replace_never_raises (cfg : Config) (oracle : String → WebOutcome)
    (custom : List (String × String)) (fuel : Nat) (st : RState) (rng : Rng)
    (text : String) (orgs : List (String × Nat × Nat)) :
    (replace_organizations_hybrid cfg oracle custom fuel st rng text
        orgs).isSome = true := by
  unfold replace_organizations_hybrid
  split
  · rfl
  · exact replaceLoop_isSome cfg oracle custom fuel _ text [] [] st rng none
      none 0

/-! ## C9: the synthesis loop has no retry cap -/

/-- Appending a fresh element keeps a list nodup. -/
theorem nodup_append_singleton {α : Type} {l : List α} {a : α}
    (hn : l.Nodup) (ha : a ∉ l) : (l ++ [a]).Nodup := by
  induction l with
  | nil => simp
  | cons b t ih =>
    rw [List.cons_append, List.nodup_cons]
    rw [List.nodup_cons] at hn
    have hat : a ∉ t := fun h2 => ha (List.mem_cons_of_mem b h2)
    refine ⟨?_, ih hn.2 hat⟩
    intro hb
    rcases List.mem_append.mp hb with h1 | h2
    · exact hn.1 h1
    · have hba : b = a := List.mem_singleton.mp h2
      subst hba
      exact ha (List.mem_cons_self b t)

/-- The synthesis loop only ever adds distinct generator variants to the
pool. -/
theorem synthLoop_invariant (orgName industry : String) (count : Nat) :
    ∀ (fuel : Nat) (pool : List String) (rng : Rng) (out : List String × Rng),
      pool ⊆ generationVariations orgName industry → pool.Nodup →
      synthLoop orgName industry count fuel pool rng = some out →
      out.1 ⊆ generationVariations orgName industry ∧ out.1.Nodup := by
  intro fuel
  induction fuel with
  | zero =>
    intro pool rng out hs hn h
    cases h
    exact ⟨hs, hn⟩
  | succ n ih =>
    intro pool rng out hs hn h
    unfold synthLoop at h
    split at h
    · split at h
      · cases h
      · rename_i syn rng' hgen
        have hsynmem : syn ∈ generationVariations orgName industry :=
          pyChoice_mem _ rng syn rng'
            (by simpa [generate_contextual_organization] using hgen)
        refine ih _ rng' out ?_ ?_ h
        · split
          · exact hs
          · intro x hx
            rcases List.mem_append.mp hx with h1 | h2
            · exact hs h1
            · rw [List.mem_singleton.mp h2]
              exact hsynmem
        · split
          · exact hn
          · rename_i hcont
            refine nodup_append_singleton hn ?_
            intro hm
            have h2 : pool.contains syn = true := List.elem_eq_true_of_mem hm
            exact absurd h2 hcont
    · cases h
      exact ⟨hs, hn⟩

/-- C9 counterexample: the synthesis loop has NO retry cap.  For the input
`Zzqorg` with industry `media` only 7 variants exist, so a request for 20
candidates from an empty pool never completes: whatever the randomness
stream and however many iterations are allowed, the pool stays below 20 —
the corresponding `while` loop of the source spins forever. -/
theorem C9_synthloop_never_terminates_cex :
    ¬ ∃ (rng : Rng) (fuel : Nat) (out : List String × Rng),
        synthLoop "Zzqorg" "media" 20 fuel [] rng = some out ∧
        20 ≤ out.1.length := by
  rintro ⟨rng, fuel, out, hout, hlen⟩
  have hfin := synthLoop_invariant "Zzqorg" "media" 20 fuel [] rng out
    (List.nil_subset _) List.nodup_nil hout
  have hle : out.1.length ≤ (generationVariations "Zzqorg" "media").length :=
    nodup_subset_length_le hfin.2 hfin.1
  have hv : (generationVariations "Zzqorg" "media").length = 7 := by decide
  omega

/-- The assembly tail at count 5 ignores its iteration bound: the pool
already holds at least five candidates when the loop is reached. -/
theorem gsFinish_fuel_free (orgName industry : String) (fuel : Nat)
    (st : RState) (rng : Rng) (calls : Nat) (similar : List String) :
    gsFinish orgName industry 5 fuel st rng calls similar =
      gsFinish orgName industry 5 0 st rng calls similar := by
  simp only [gsFinish]
  set pool0 := (if similar.length < 5 then
      extendRelated (strLower orgName) 5 (relatedIndustries industry) similar
    else similar) with hpool0
  have hlen : 5 ≤ pool0.length := by
    rw [hpool0]
    split
    · rename_i h5
      exact extendRelated_reaches industry (strLower orgName) similar h5
    · rename_i h5
      omega
  rw [synthLoop_noop orgName industry 5 fuel pool0 rng hlen,
    synthLoop_noop orgName industry 5 0 pool0 rng hlen]

/-- C9 (amended): the loop of lines 333-337 has no retry cap and spins
forever when the requested count exceeds the pool plus the available
variants (see the counterexample); however, at the count 5 used by the
replacement operation the loop body is never entered — the pool already
holds at least five candidates after the related-industry extension — so
candidate assembly terminates and its result does not depend on the
iteration bound at all. -/
theorem C9_assembly_fuel_free_at_5 (cfg : Config)
    (oracle : String → WebOutcome) (st : RState) (rng : Rng) (name : String)
    (fuel : Nat) :
    get_similar_organizations_hybrid cfg oracle st rng name 5 fuel =
      get_similar_organizations_hybrid cfg oracle st rng name 5 0 := by
  simp only [get_similar_organizations_hybrid]
  split
  · rfl
  · exact gsFinish_fuel_free name _ fuel _ rng _ _


/-! ## C10: the lru_cache freezes a classification only below capacity -/

/-- Filler names are pairwise distinct. -/
theorem aStr_inj {m n : Nat} (h : aStr m = aStr n) : m = n := by
  have h2 : (List.replicate m 'a').length = (List.replicate n 'a').length :=
    congrArg (fun s => s.data.length) h
  simpa using h2

/-- No filler name collides with the probe name. -/
theorem aStr_ne_zzqx (n : Nat) : aStr (n + 1) ≠ "zzqx" := by
  intro h
  have h2 : ('a' :: List.replicate n 'a') = ['z', 'z', 'q', 'x'] :=
    congrArg String.data h
  injection h2 with h4 h5
  exact absurd h4 (by decide)

theorem aEntriesRev_length (lrn : List (String × String)) :
    ∀ n, (aEntriesRev lrn n).length = n := by
  intro n
  induction n with
  | zero => rfl
  | succ n ih => simp [aEntriesRev, ih]

theorem aEntriesRev_keys (lrn : List (String × String)) :
    ∀ n, ∀ p ∈ aEntriesRev lrn n, ∃ j, j < n ∧ p.1 = aStr (j + 1) := by
  intro n
  induction n with
  | zero => intro p hp; simp [aEntriesRev] at hp
  | succ n ih =>
    intro p hp
    simp only [aEntriesRev, List.mem_cons] at hp
    rcases hp with hp1 | hp1
    · exact ⟨n, Nat.lt_succ_self n, by rw [hp1]⟩
    · obtain ⟨j, hj, hk⟩ := ih p hp1
      exact ⟨j, Nat.lt_succ_of_lt hj, hk⟩

theorem aFill_miss (lrn : List (String × String)) (c0 : FastCache) (n : Nat)
    (hfresh : ∀ q ∈ c0.map Prod.fst, ∀ i : Nat, q ≠ aStr (i + 1)) :
    (aEntriesRev lrn n ++ c0).find? (fun p => p.1 == aStr (n + 1)) = none := by
  rw [List.find?_eq_none]
  intro p hp hbeq
  have hkey : p.1 = aStr (n + 1) := eq_of_beq hbeq
  rcases List.mem_append.mp hp with hp1 | hp1
  · obtain ⟨j, hj, hk⟩ := aEntriesRev_keys lrn n p hp1
    have hje : j + 1 = n + 1 := aStr_inj (by rw [← hk]; exact hkey)
    omega
  · exact hfresh p.1 (List.mem_map_of_mem Prod.fst hp1) n hkey

theorem aEntries_zzqx_miss (lrn : List (String × String)) (n : Nat) :
    (aEntriesRev lrn n).find? (fun p => p.1 == "zzqx") = none := by
  rw [List.find?_eq_none]
  intro p hp hbeq
  obtain ⟨j, hj, hk⟩ := aEntriesRev_keys lrn n p hp
  exact aStr_ne_zzqx j (by rw [← hk]; exact eq_of_beq hbeq)

theorem fastCat_mid (st : RState) (mid : FastCache) (name : String) :
    (fast_categorize_organization { st with fast_cache := mid } name).2
      = { st with fast_cache := (memoStep st.learned_patterns mid name).2 } := rfl

theorem fastCat_val_mid (st : RState) (mid : FastCache) (name : String) :
    (fast_categorize_organization { st with fast_cache := mid } name).1
      = (memoStep st.learned_patterns mid name).1 := rfl

/-- The miss equation of the cache wrapper, with the lookup given. -/
theorem memoStep_miss (lrn : List (String × String)) (cache : FastCache)
    (name : String) (h : cache.find? (fun p => p.1 == name) = none) :
    memoStep lrn cache name
      = (fast_categorize_raw lrn name,
         ((name, fast_categorize_raw lrn name) :: cache).take
           FAST_CACHE_MAXSIZE) := by
  unfold memoStep
  rw [h]

/-- The hit equation of the cache wrapper, with the lookup given. -/
theorem memoStep_hit (lrn : List (String × String)) (cache : FastCache)
    (name : String) (entry : String × (String × ℚ))
    (h : cache.find? (fun p => p.1 == name) = some entry) :
    memoStep lrn cache name
      = (entry.2, (entry.1, entry.2)
          :: cache.eraseP (fun p => p.1 == name)) := by
  unfold memoStep
  rw [h]

/-- Categorizing up to 1999 fresh filler names stacks their entries in front
of the original cache without evicting anything. -/
theorem catRun_fill (n : Nat) : ∀ st : RState,
    (∀ q ∈ st.fast_cache.map Prod.fst, ∀ i : Nat, q ≠ aStr (i + 1)) →
    st.fast_cache.length + n ≤ FAST_CACHE_MAXSIZE →
    catRun (aList n) st
      = { st with fast_cache :=
            aEntriesRev st.learned_patterns n ++ st.fast_cache } := by
  induction n with
  | zero =>
    intro st h1 h2
    rfl
  | succ n ih =>
    intro st hfresh hlen
    have hsnoc : aList (n + 1) = aList n ++ [aStr (n + 1)] := by
      simp [aList, List.range_succ]
    have hcat : catRun (aList n ++ [aStr (n + 1)]) st
        = (fast_categorize_organization (catRun (aList n) st) (aStr (n + 1))).2 := by
      simp [catRun]
    have hm0 : memoStep st.learned_patterns
          (aEntriesRev st.learned_patterns n ++ st.fast_cache) (aStr (n + 1))
        = (fast_categorize_raw st.learned_patterns (aStr (n + 1)),
           ((aStr (n + 1), fast_categorize_raw st.learned_patterns (aStr (n + 1)))
              :: (aEntriesRev st.learned_patterns n ++ st.fast_cache)).take
             FAST_CACHE_MAXSIZE) :=
      memoStep_miss st.learned_patterns
        (aEntriesRev st.learned_patterns n ++ st.fast_cache) (aStr (n + 1))
        (aFill_miss st.learned_patterns st.fast_cache n hfresh)
    have hlen2 : (((aStr (n + 1),
          fast_categorize_raw st.learned_patterns (aStr (n + 1)))
            :: (aEntriesRev st.learned_patterns n ++ st.fast_cache))).length
        ≤ FAST_CACHE_MAXSIZE := by
      simp [aEntriesRev_length]
      omega
    have hm : (memoStep st.learned_patterns
          (aEntriesRev st.learned_patterns n ++ st.fast_cache) (aStr (n + 1))).2
        = aEntriesRev st.learned_patterns (n + 1) ++ st.fast_cache := by
      rw [hm0, List.take_all_of_le hlen2]
      rfl
    rw [hsnoc, hcat, ih st hfresh (by omega), fastCat_mid, hm]

/-- The 2000th fresh categorization evicts the original cache entry. -/
theorem catRun_evicts (st : RState)
    (hfresh : ∀ q ∈ st.fast_cache.map Prod.fst, ∀ i : Nat, q ≠ aStr (i + 1))
    (hlen : st.fast_cache.length = 1) :
    catRun (aList FAST_CACHE_MAXSIZE) st
      = { st with fast_cache :=
            aEntriesRev st.learned_patterns FAST_CACHE_MAXSIZE } := by
  have h1999 : catRun (aList 1999) st
      = { st with fast_cache :=
            aEntriesRev st.learned_patterns 1999 ++ st.fast_cache } :=
    catRun_fill 1999 st hfresh (by rw [hlen]; decide)
  have hsnoc : aList FAST_CACHE_MAXSIZE = aList 1999 ++ [aStr (1999 + 1)] := by
    unfold aList
    rw [show FAST_CACHE_MAXSIZE = 1999 + 1 from rfl, List.range_succ,
      List.map_append]
    rfl
  have hcat : catRun (aList 1999 ++ [aStr (1999 + 1)]) st
      = (fast_categorize_organization (catRun (aList 1999) st) (aStr (1999 + 1))).2 := by
    simp [catRun]
  have hm0 : memoStep st.learned_patterns
        (aEntriesRev st.learned_patterns 1999 ++ st.fast_cache) (aStr (1999 + 1))
      = (fast_categorize_raw st.learned_patterns (aStr (1999 + 1)),
         ((aStr (1999 + 1), fast_categorize_raw st.learned_patterns (aStr (1999 + 1)))
            :: (aEntriesRev st.learned_patterns 1999 ++ st.fast_cache)).take
           FAST_CACHE_MAXSIZE) :=
    memoStep_miss st.learned_patterns
      (aEntriesRev st.learned_patterns 1999 ++ st.fast_cache) (aStr (1999 + 1))
      (aFill_miss st.learned_patterns st.fast_cache 1999 hfresh)
  have hll : ((aStr (1999 + 1),
        fast_categorize_raw st.learned_patterns (aStr (1999 + 1)))
      :: aEntriesRev st.learned_patterns 1999).length = FAST_CACHE_MAXSIZE := by
    rw [List.length_cons, aEntriesRev_length st.learned_patterns 1999]
    decide
  have htake : (((aStr (1999 + 1),
        fast_categorize_raw st.learned_patterns (aStr (1999 + 1)))
          :: (aEntriesRev st.learned_patterns 1999 ++ st.fast_cache))).take
        FAST_CACHE_MAXSIZE
      = (aStr (1999 + 1), fast_categorize_raw st.learned_patterns (aStr (1999 + 1)))
          :: aEntriesRev st.learned_patterns 1999 := by
    rw [show ((aStr (1999 + 1),
          fast_categorize_raw st.learned_patterns (aStr (1999 + 1)))
            :: (aEntriesRev st.learned_patterns 1999 ++ st.fast_cache))
        = ((aStr (1999 + 1),
            fast_categorize_raw st.learned_patterns (aStr (1999 + 1)))
              :: aEntriesRev st.learned_patterns 1999) ++ st.fast_cache from rfl]
    exact List.take_left' hll
  rw [hsnoc, hcat, h1999, fastCat_mid, hm0]
  rw [htake]
  rfl

/-- After any cache access the accessed name sits at the front of the cache
with the returned value, and the cache keys stay distinct. -/
theorem memoStep_establishes_front (learned : List (String × String))
    (cache : FastCache) (name : String)
    (hnd : (cache.map Prod.fst).Nodup) :
    ∃ rest, (memoStep learned cache name).2
        = (name, (memoStep learned cache name).1) :: rest ∧
      ((((memoStep learned cache name).2)).map Prod.fst).Nodup := by
  rcases hfq : cache.find? (fun p => p.1 == name) with _ | entry
  · have hv : memoStep learned cache name
        = (fast_categorize_raw learned name,
           ((name, fast_categorize_raw learned name) :: cache).take
             FAST_CACHE_MAXSIZE) := memoStep_miss learned cache name hfq
    have htake : ((name, fast_categorize_raw learned name) :: cache).take
          FAST_CACHE_MAXSIZE
        = (name, fast_categorize_raw learned name) :: cache.take 1999 := by
      rw [show FAST_CACHE_MAXSIZE = 1999 + 1 from rfl, List.take_succ_cons]
    have hnotin : name ∉ (cache.take 1999).map Prod.fst := by
      intro hmem
      obtain ⟨p, hp, hpk⟩ := List.mem_map.mp hmem
      have hp2 : p ∈ cache := (List.take_sublist 1999 cache).subset hp
      exact (List.find?_eq_none.mp hfq p hp2) (by simp [hpk])
    refine ⟨cache.take 1999, ?_, ?_⟩
    · rw [hv, htake]
    · rw [hv, htake]
      simp only [List.map_cons]
      exact List.nodup_cons.mpr ⟨hnotin,
        List.Nodup.sublist ((List.take_sublist 1999 cache).map Prod.fst) hnd⟩
  · have hpa := List.find?_some hfq
    have hey : entry.1 = name := eq_of_beq hpa
    have hmem : entry ∈ cache := List.mem_of_find?_eq_some hfq
    have hpb : (fun p => p.1 == name) entry = true := hpa
    obtain ⟨a, l₁, l₂, hno, hpa2, hdec, hder⟩ :=
      @List.exists_of_eraseP _ (fun p => p.1 == name) _ _ hmem hpb
    have hay : a.1 = name := eq_of_beq hpa2
    have hv2 : memoStep learned cache name
        = (entry.2, (entry.1, entry.2) :: (l₁ ++ l₂)) := by
      rw [memoStep_hit learned cache name entry hfq, hder]
    have hperm : List.Perm (((entry.1, entry.2) :: (l₁ ++ l₂)).map Prod.fst)
        (cache.map Prod.fst) := by
      rw [hdec]
      simp only [List.map_cons, List.map_append, hey, hay]
      exact List.perm_middle.symm
    refine ⟨l₁ ++ l₂, ?_, ?_⟩
    · rw [hv2, hey]
    · rw [hv2]
      exact (List.Perm.nodup_iff hperm).mpr hnd

/-- Looking up a name whose entry is present, with no duplicate of its key
in front of it, returns the stored value. -/
theorem memoStep_hit_value (learned : List (String × String))
    (front back : FastCache) (name : String) (v : String × ℚ)
    (hno : name ∉ front.map Prod.fst) :
    (memoStep learned (front ++ (name, v) :: back) name).1 = v := by
  have h1 : front.find? (fun p => p.1 == name) = none := by
    rw [List.find?_eq_none]
    intro p hp hbeq
    exact hno (List.mem_map.mpr ⟨p, hp, eq_of_beq hbeq⟩)
  have hf : (front ++ (name, v) :: back).find? (fun p => p.1 == name)
      = some (name, v) := by
    rw [List.find?_append, h1, List.find?_cons_of_pos _ (by simp)]
    rfl
  rw [memoStep_hit learned (front ++ (name, v) :: back) name (name, v) hf]

/-- Interleaved accesses for other names keep the probe entry present with
its value intact, as long as fewer than the cache capacity of them occur:
each access pushes the entry at most one slot deeper. -/
theorem memoFold_retention (x : String) (v : String × ℚ)
    (steps : List (List (String × String) × String)) :
    ∀ front back : FastCache,
      (∀ s ∈ steps, s.2 ≠ x) →
      ((front ++ (x, v) :: back).map Prod.fst).Nodup →
      front.length + steps.length < FAST_CACHE_MAXSIZE →
      ∃ front2 back2,
        memoFold steps (front ++ (x, v) :: back) = front2 ++ (x, v) :: back2 ∧
        ((front2 ++ (x, v) :: back2).map Prod.fst).Nodup := by
  induction steps with
  | nil =>
    intro front back h1 hnd h2
    exact ⟨front, back, rfl, hnd⟩
  | cons s rest ih =>
    intro front back hx hnd hlen
    obtain ⟨lrn, y⟩ := s
    have hyx : y ≠ x := hx (lrn, y) (List.mem_cons_self _ _)
    have hx2 : ∀ t ∈ rest, t.2 ≠ x := fun t ht => hx t (List.mem_cons_of_mem _ ht)
    have hlen2 : front.length + rest.length + 1 < FAST_CACHE_MAXSIZE := by
      have h0 := hlen
      simp only [List.length_cons] at h0
      omega
    have hfold : memoFold ((lrn, y) :: rest) (front ++ (x, v) :: back)
        = memoFold rest ((memoStep lrn (front ++ (x, v) :: back) y).2) := rfl
    rcases hfq : (front ++ (x, v) :: back).find? (fun p => p.1 == y) with _ | entry
    · -- the interleaved name misses: it is pushed in front
      have hv2 : (memoStep lrn (front ++ (x, v) :: back) y).2
          = (((y, fast_categorize_raw lrn y) :: (front ++ (x, v) :: back))).take
              FAST_CACHE_MAXSIZE := by
        rw [memoStep_miss lrn (front ++ (x, v) :: back) y hfq]
      obtain ⟨m, hm⟩ : ∃ m, FAST_CACHE_MAXSIZE - (front.length + 1) = m + 1 :=
        ⟨FAST_CACHE_MAXSIZE - front.length - 2, by omega⟩
      have hle : ((y, fast_categorize_raw lrn y) :: front).length
          ≤ FAST_CACHE_MAXSIZE := by
        simp only [List.length_cons]
        omega
      have htk : (((y, fast_categorize_raw lrn y) :: (front ++ (x, v) :: back))).take
            FAST_CACHE_MAXSIZE
          = ((y, fast_categorize_raw lrn y) :: front) ++ (x, v) :: back.take m := by
        rw [show ((y, fast_categorize_raw lrn y) :: (front ++ (x, v) :: back))
            = ((y, fast_categorize_raw lrn y) :: front) ++ ((x, v) :: back)
          from rfl]
        rw [List.take_append_eq_append_take, List.take_all_of_le hle]
        have hsub : FAST_CACHE_MAXSIZE
            - ((y, fast_categorize_raw lrn y) :: front).length = m + 1 := by
          simp only [List.length_cons]
          omega
        rw [hsub, List.take_succ_cons]
      have hys : y ∉ (front ++ (x, v) :: back).map Prod.fst := by
        intro hy
        obtain ⟨p, hp, hpy⟩ := List.mem_map.mp hy
        exact (List.find?_eq_none.mp hfq p hp) (by simp [hpy])
      have hsub2 : List.Sublist (front ++ (x, v) :: back.take m)
          (front ++ (x, v) :: back) :=
        List.Sublist.append_left
          (List.Sublist.cons₂ (x, v) (List.take_sublist m back)) front
      have hnd2 : ((((y, fast_categorize_raw lrn y) :: front)
          ++ (x, v) :: back.take m).map Prod.fst).Nodup := by
        rw [show (((y, fast_categorize_raw lrn y) :: front) ++ (x, v) :: back.take m)
            = (y, fast_categorize_raw lrn y) :: (front ++ (x, v) :: back.take m)
          from rfl]
        simp only [List.map_cons]
        refine List.nodup_cons.mpr ⟨?_, ?_⟩
        · intro hy2
          exact hys ((hsub2.map Prod.fst).subset hy2)
        · exact List.Nodup.sublist (hsub2.map Prod.fst) hnd
      obtain ⟨front2, back2, hres, hnd3⟩ :=
        ih ((y, fast_categorize_raw lrn y) :: front) (back.take m) hx2 hnd2
          (by simp only [List.length_cons]; omega)
      refine ⟨front2, back2, ?_, hnd3⟩
      rw [hfold, hv2, htk]
      exact hres
    · -- the interleaved name hits: its entry moves to the front
      have hpa := List.find?_some hfq
      have hey : entry.1 = y := eq_of_beq hpa
      have hmem : entry ∈ front ++ (x, v) :: back := List.mem_of_find?_eq_some hfq
      have hpb : (fun p => p.1 == y) entry = true := hpa
      obtain ⟨a, l₁, l₂, hno, hpa2, hdec, hder⟩ :=
        @List.exists_of_eraseP _ (fun p => p.1 == y) _ _ hmem hpb
      have hay : a.1 = y := eq_of_beq hpa2
      have hv2 : (memoStep lrn (front ++ (x, v) :: back) y).2
          = (entry.1, entry.2) :: (l₁ ++ l₂) := by
        rw [memoStep_hit lrn (front ++ (x, v) :: back) y entry hfq, hder]
      have hperm : List.Perm (((entry.1, entry.2) :: (l₁ ++ l₂)).map Prod.fst)
          ((front ++ (x, v) :: back).map Prod.fst) := by
        rw [hdec]
        simp only [List.map_cons, List.map_append, hey, hay]
        exact List.perm_middle.symm
      have hndc : (((entry.1, entry.2) :: (l₁ ++ l₂)).map Prod.fst).Nodup :=
        (List.Perm.nodup_iff hperm).mpr hnd
      rcases List.append_eq_append_iff.mp hdec with ⟨w2, hA1, hA2⟩ | ⟨c2, hB1, hB2⟩
      · rcases w2 with _ | ⟨p0, w2t⟩
        · simp only [List.nil_append] at hA2
          injection hA2 with h5 h6
          rw [← h5] at hay
          simp at hay
          exact absurd hay.symm hyx
        · simp only [List.cons_append] at hA2
          injection hA2 with h5 h6
          have hl1 : l₁ = front ++ (x, v) :: w2t := by
            rw [hA1, h5]
          have hre : ((entry.1, entry.2) :: (l₁ ++ l₂))
              = ((y, entry.2) :: front) ++ (x, v) :: (w2t ++ l₂) := by
            rw [hey, hl1]
            simp [List.append_assoc]
          obtain ⟨front2, back2, hres, hnd3⟩ :=
            ih ((y, entry.2) :: front) (w2t ++ l₂) hx2
              (by rw [← hre]; exact hndc)
              (by simp only [List.length_cons]; omega)
          refine ⟨front2, back2, ?_, hnd3⟩
          rw [hfold, hv2, hre]
          exact hres
      · rcases c2 with _ | ⟨p0, c2t⟩
        · simp only [List.nil_append] at hB2
          injection hB2 with h5 h6
          rw [h5] at hay
          simp at hay
          exact absurd hay.symm hyx
        · simp only [List.cons_append] at hB2
          injection hB2 with h5 h6
          have hfr : front = l₁ ++ a :: c2t := by
            rw [hB1, h5]
          have hre : ((entry.1, entry.2) :: (l₁ ++ l₂))
              = ((y, entry.2) :: (l₁ ++ c2t)) ++ (x, v) :: back := by
            rw [hey, h6]
            simp [List.append_assoc]
          have hflen : front.length = l₁.length + c2t.length + 1 := by
            rw [hfr]
            simp only [List.length_append, List.length_cons]
            omega
          obtain ⟨front2, back2, hres, hnd3⟩ :=
            ih ((y, entry.2) :: (l₁ ++ c2t)) back hx2
              (by rw [← hre]; exact hndc)
              (by simp only [List.length_cons, List.length_append]; omega)
          refine ⟨front2, back2, ?_, hnd3⟩
          rw [hfold, hv2, hre]
          exact hres

/-- Raw classification of the probe name once a learned pattern for it
exists: the exact-catalog stage misses and the learned-pattern stage hits
at confidence 0.8. -/
theorem raw_zzqx_learned :
    fast_categorize_raw [("zzqx", "finance")] "zzqx" = ("finance", mkRat 8 10) := by
  decide

/-- C10 (amended): within one run, once the memoized classifier has been
called for a name, a later call for the same name returns the identical
(industry, confidence) pair even if web enrichment records a learned
pattern for the name in between — PROVIDED fewer than 2000 (the
`lru_cache` maxsize) interleaved calls for other names occur; the
interleaved calls may each use an arbitrary learned-pattern dict.  Beyond
the capacity the entry is evicted and recomputed (see
the eviction counterexample). -/
theorem C10_classification_frozen_under_capacity
    (learned0 learned1 : List (String × String)) (cache0 : FastCache)
    (name : String) (steps : List (List (String × String) × String))
    (hnd : (cache0.map Prod.fst).Nodup)
    (hnames : ∀ s ∈ steps, s.2 ≠ name)
    (hcount : steps.length < FAST_CACHE_MAXSIZE) :
    (memoStep learned1 (memoFold steps (memoStep learned0 cache0 name).2) name).1
      = (memoStep learned0 cache0 name).1 := by
  obtain ⟨rest, hshape, hnd1⟩ :=
    memoStep_establishes_front learned0 cache0 name hnd
  rw [hshape] at hnd1 ⊢
  obtain ⟨front2, back2, hres, hnd2⟩ :=
    memoFold_retention name ((memoStep learned0 cache0 name).1) steps [] rest
      hnames (by simpa using hnd1) (by simpa using hcount)
  rw [List.nil_append] at hres
  rw [hres]
  have hnot : name ∉ front2.map Prod.fst := by
    have h2 := hnd2
    rw [List.map_append] at h2
    rcases List.nodup_append.mp h2 with ⟨ha, hb, hdisj⟩
    intro hc
    exact hdisj hc (by simp)
  exact memoStep_hit_value learned1 front2 back2 name
    ((memoStep learned0 cache0 name).1) hnot

/-- Witness for the amended C10: a Microsoft classification with one
interleaved Apple access and a learned pattern recorded in between; the
second Microsoft call returns the first value. -/
theorem C10_classification_frozen_witness :
    (∀ s ∈ [(([] : List (String × String)), "Apple")], s.2 ≠ "Microsoft") ∧
    (memoStep [("zzqx", "finance")]
        (memoFold [([], "Apple")] (memoStep [] [] "Microsoft").2) "Microsoft").1
      = (memoStep [] [] "Microsoft").1 :=
  ⟨by decide,
    C10_classification_frozen_under_capacity [] [("zzqx", "finance")] []
      "Microsoft" [([], "Apple")] (by simp) (by decide) (by decide)⟩

/-- C10 fails beyond the cache capacity: the probe name zzqx is first
classified (technology, 0.3) and cached; web enrichment then records the
learned pattern zzqx → finance without touching the cache; categorizing
2000 distinct fresh names evicts the probe entry from the 2000-entry
`lru_cache`; the next call for zzqx recomputes against the now-present
learned pattern and returns (finance, 0.8) — a different pair within the
same run. -/
theorem C10_lru_eviction_cex :
    (fast_categorize_organization initState "zzqx").1 = ("technology", mkRat 3 10) ∧
    (fast_categorize_organization
        (catRun (aList FAST_CACHE_MAXSIZE)
          (discover_organization_web cfg5 oracleFinance
            (fast_categorize_organization initState "zzqx").2 "zzqx").st)
        "zzqx").1 = ("finance", mkRat 8 10) ∧
    (("technology", mkRat 3 10) : String × ℚ) ≠ ("finance", mkRat 8 10) := by
  have hm : memoStep ([] : List (String × String)) ([] : FastCache) "zzqx"
      = (("technology", mkRat 3 10), [("zzqx", ("technology", mkRat 3 10))]) := by
    rw [memoStep_miss [] [] "zzqx" rfl, raw_zzqx,
      show FAST_CACHE_MAXSIZE = 1999 + 1 from rfl, List.take_succ_cons,
      List.take_nil]
  have h1 : fast_categorize_organization initState "zzqx"
      = (("technology", mkRat 3 10), stZzqx) := by
    rw [show fast_categorize_organization initState "zzqx"
        = ((memoStep [] [] "zzqx").1,
           { initState with fast_cache := (memoStep [] [] "zzqx").2 })
      from rfl, hm]
    rfl
  have h2 : (fast_categorize_organization initState "zzqx").2 = stZzqx := by
    rw [h1]
  have h3 : (fast_categorize_organization initState "zzqx").1
      = ("technology", mkRat 3 10) := by
    rw [h1]
  have hlrn : (discover_organization_web cfg5 oracleFinance stZzqx
      "zzqx").st.learned_patterns = [("zzqx", "finance")] := by decide
  have hcache : (discover_organization_web cfg5 oracleFinance stZzqx
      "zzqx").st.fast_cache = [("zzqx", ("technology", mkRat 3 10))] := by decide
  have hfresh : ∀ q ∈ ((discover_organization_web cfg5 oracleFinance stZzqx
        "zzqx").st.fast_cache.map Prod.fst), ∀ i : Nat, q ≠ aStr (i + 1) := by
    rw [hcache]
    intro q hq i
    have hq2 : q = "zzqx" := by simpa using hq
    rw [hq2]
    exact fun h => aStr_ne_zzqx i h.symm
  have hlen1 : (discover_organization_web cfg5 oracleFinance stZzqx
      "zzqx").st.fast_cache.length = 1 := by
    rw [hcache]
    rfl
  have hev := catRun_evicts
    (discover_organization_web cfg5 oracleFinance stZzqx "zzqx").st hfresh hlen1
  refine ⟨h3, ?_, by decide⟩
  rw [h2, hev, fastCat_val_mid, hlrn]
  rw [memoStep_miss [("zzqx", "finance")]
      (aEntriesRev [("zzqx", "finance")] FAST_CACHE_MAXSIZE) "zzqx"
      (aEntries_zzqx_miss [("zzqx", "finance")] FAST_CACHE_MAXSIZE)]
  exact raw_zzqx_learned


end OrgReplace
